import Mathlib

/-!
# Verification of the logjam backend core

Shallow embedding of the `logjam` Rust backend (domain aggregates, markdown
parser, text preprocessor, keyword search, sync service, SQLite page
repository, embedding value objects) together with proofs that settle the
frozen claims about the natural-language specification.

Modelling conventions:
* `HashMap<BlockId, Block>` is modelled as an association list
  `List (String × Block)` with unique keys; `hmGet`/`hmInsert`/`hmRemove`
  mirror `get`/`insert`/`remove`.  The list order stands in for one
  admissible iteration order of the hash map (Rust's `HashMap` iteration
  order is arbitrary, so any universally quantified statement about code
  that iterates a map must hold for every enumeration; functions that
  depend on the iteration order take the enumeration explicitly).
* Rust recursion that can diverge on ill-formed inputs (`remove_block`,
  `get_ancestors`, `get_descendants`, the chunker loop) is embedded with an
  explicit fuel parameter; `none` means the computation did not finish
  within the given fuel, and theorems provide or assume sufficient fuel.
* `f32` scores in the search layer are exact literals (1.0 / 0.9 / 0.8 /
  0.7) that are only assigned and compared, never computed with; they are
  modelled as rationals.
-/

namespace Logjam

/-- Domain error type, mirroring `domain/base.rs` `DomainError` (the variants
used by the embedded code). -/
inductive DomainError where
  | invalidValue (msg : String)
  | notFound (msg : String)
  | invalidOperation (msg : String)
  deriving DecidableEq, Repr

/-- A page reference, mirroring `value_objects.rs` `PageReference`:
a title plus the tag flag. -/
structure PageRef where
  title : String
  isTag : Bool
  deriving DecidableEq, Repr

/-- A block, mirroring `entities.rs` `Block`.  `BlockContent` wraps a plain
string and `IndentLevel` wraps a `usize`, so they are modelled as `String`
and `Nat`; `Url` wraps a validated string. -/
structure Block where
  id : String
  content : String
  indentLevel : Nat
  parentId : Option String
  childIds : List String
  urls : List String
  pageReferences : List PageRef
  deriving DecidableEq, Repr

/-- `Block::new_root`. -/
def Block.newRoot (id content : String) : Block :=
  { id := id, content := content, indentLevel := 0, parentId := none,
    childIds := [], urls := [], pageReferences := [] }

/-- `Block::new_child`. -/
def Block.newChild (id content parentId : String) (indentLevel : Nat) : Block :=
  { id := id, content := content, indentLevel := indentLevel,
    parentId := some parentId, childIds := [], urls := [], pageReferences := [] }

/-- `Block::add_child`: append unless already present. -/
def Block.addChild (b : Block) (childId : String) : Block :=
  if childId ∈ b.childIds then b else { b with childIds := b.childIds ++ [childId] }

/-- `Block::remove_child`: `retain(|id| id != child_id)`. -/
def Block.removeChild (b : Block) (childId : String) : Block :=
  { b with childIds := b.childIds.filter (fun c => c ≠ childId) }

/-- `Block::add_url`: append unless already present. -/
def Block.addUrl (b : Block) (url : String) : Block :=
  if url ∈ b.urls then b else { b with urls := b.urls ++ [url] }

/-- `Block::add_page_reference`: append unless already present. -/
def Block.addPageReference (b : Block) (r : PageRef) : Block :=
  if r ∈ b.pageReferences then b else
    { b with pageReferences := b.pageReferences ++ [r] }

/-! ### Association-list model of `HashMap<BlockId, Block>` -/

/-- `HashMap::get`: first binding of the key. -/
def hmGet : List (String × Block) → String → Option Block
  | [], _ => none
  | (k, v) :: rest, key => if k = key then some v else hmGet rest key

/-- `HashMap::contains_key`. -/
def hmContains (m : List (String × Block)) (key : String) : Bool :=
  (hmGet m key).isSome

/-- `HashMap::insert`: replace the binding in place or append a fresh one. -/
def hmInsert : List (String × Block) → String → Block → List (String × Block)
  | [], key, v => [(key, v)]
  | (k, w) :: rest, key, v =>
    if k = key then (key, v) :: rest else (k, w) :: hmInsert rest key v

/-- `HashMap::remove` (discarding the returned value). -/
def hmRemove : List (String × Block) → String → List (String × Block)
  | [], _ => []
  | (k, v) :: rest, key => if k = key then rest else (k, v) :: hmRemove rest key

/-- `HashMap::get_mut` followed by an update of the found entry
(the no-op when the key is absent mirrors `if let Some(x) = get_mut(..)`). -/
def hmModify : List (String × Block) → String → (Block → Block) → List (String × Block)
  | [], _, _ => []
  | (k, v) :: rest, key, f =>
    if k = key then (k, f v) :: rest else (k, v) :: hmModify rest key f

/-- Keys of the association list. -/
def hmKeys (m : List (String × Block)) : List String := m.map Prod.fst

/-- A page, mirroring `aggregates.rs` `Page`. -/
structure Page where
  id : String
  title : String
  blocks : List (String × Block)
  rootBlockIds : List String
  deriving DecidableEq, Repr

/-- `Page::new`. -/
def Page.new (id title : String) : Page :=
  { id := id, title := title, blocks := [], rootBlockIds := [] }

/-- `Page::get_block`. -/
def Page.getBlock (p : Page) (id : String) : Option Block :=
  hmGet p.blocks id

/-- `Page::add_block`, mirroring `aggregates.rs` lines 40-70: verify the
parent exists, insert the block, then install the child link (or append to
`root_block_ids` unless already present). -/
def Page.addBlock (page : Page) (block : Block) : Except DomainError Page :=
  let blockId := block.id
  match block.parentId with
  | some pid =>
    if hmContains page.blocks pid then
      let blocks1 := hmInsert page.blocks blockId block
      Except.ok { page with blocks := hmModify blocks1 pid (fun b => b.addChild blockId) }
    else
      Except.error (DomainError.invalidOperation
        ("Parent block " ++ pid ++ " does not exist"))
  | none =>
    let blocks1 := hmInsert page.blocks blockId block
    if blockId ∈ page.rootBlockIds then
      Except.ok { page with blocks := blocks1 }
    else
      Except.ok { page with blocks := blocks1, rootBlockIds := page.rootBlockIds ++ [blockId] }

/-- One step of `Page::remove_block` before the recursion: detach `id` from
its parent's `child_ids`, or from `root_block_ids` when it has no parent. -/
def Page.detach (page : Page) (parentId : Option String) (id : String) : Page :=
  match parentId with
  | some pid => { page with blocks := hmModify page.blocks pid (fun b => b.removeChild id) }
  | none => { page with rootBlockIds := page.rootBlockIds.filter (fun bid => bid ≠ id) }

mutual

/-- `Page::remove_block` (`aggregates.rs` lines 83-110), fuel-indexed.
The result pairs the `Result<(), DomainError>` status with the final page
state, mirroring the in-place mutation (`?` on a recursive call propagates
the error while keeping partial mutations); `none` means the recursion did
not finish within `fuel` levels. -/
def removeBlockFuel : Nat → Page → String → Option (Except DomainError Unit × Page)
  | 0, _, _ => none
  | fuel + 1, page, id =>
    match hmGet page.blocks id with
    | none => some (Except.error (DomainError.notFound
        ("Block " ++ id ++ " not found")), page)
    | some block =>
      let page1 := page.detach block.parentId id
      match removeChildrenFuel fuel page1 block.childIds with
      | none => none
      | some (Except.error e, p2) => some (Except.error e, p2)
      | some (Except.ok _, p2) =>
        some (Except.ok (), { p2 with blocks := hmRemove p2.blocks id })
  termination_by fuel _ _ => (fuel, 0)

/-- The `for child_id in child_ids { self.remove_block(&child_id)?; }` loop of
`Page::remove_block`. -/
def removeChildrenFuel : Nat → Page → List String → Option (Except DomainError Unit × Page)
  | _, page, [] => some (Except.ok (), page)
  | fuel, page, c :: cs =>
    match removeBlockFuel fuel page c with
    | none => none
    | some (Except.error e, p) => some (Except.error e, p)
    | some (Except.ok _, p) => removeChildrenFuel fuel p cs
  termination_by fuel _ cs => (fuel, cs.length + 1)

end

/-- `Page::get_ancestors` (`aggregates.rs` lines 142-160), fuel-indexed.  The
Rust `while let` loop walks `parent_id` links, pushing each found parent and
breaking when the current block or its parent is absent; `none` means the walk
did not finish within `fuel` steps (the source loops forever on a parent
cycle). -/
def getAncestorsFuel : Nat → Page → String → Option (List Block)
  | 0, _, _ => none
  | fuel + 1, page, current =>
    match hmGet page.blocks current with
    | none => some []
    | some block =>
      match block.parentId with
      | none => some []
      | some pid =>
        match hmGet page.blocks pid with
        | none => some []
        | some parent =>
          match getAncestorsFuel fuel page pid with
          | none => none
          | some rest => some (parent :: rest)

/-- `Page::get_descendants` (`aggregates.rs` lines 163-177), fuel-indexed:
pre-order traversal of `child_ids`, skipping children missing from the map.
The per-node visit (`Sum.inl`) and the `for child_id in block.child_ids()`
loop (`Sum.inr`) are merged into one structural recursion on the fuel, which
decreases at every step; only fuel-sufficiency depends on this accounting. -/
def descendGo : Nat → Page → Sum String (List String) → Option (List Block)
  | 0, _, _ => none
  | fuel + 1, page, Sum.inl id =>
    match hmGet page.blocks id with
    | none => some []
    | some block => descendGo fuel page (Sum.inr block.childIds)
  | _ + 1, _, Sum.inr [] => some []
  | fuel + 1, page, Sum.inr (c :: cs) =>
    match hmGet page.blocks c with
    | none => descendGo fuel page (Sum.inr cs)
    | some child =>
      match descendGo fuel page (Sum.inl c) with
      | none => none
      | some ds =>
        match descendGo fuel page (Sum.inr cs) with
        | none => none
        | some rest => some (child :: (ds ++ rest))

/-- `Page::get_descendants`. -/
def getDescendantsFuel (fuel : Nat) (page : Page) (id : String) : Option (List Block) :=
  descendGo fuel page (Sum.inl id)

/-- `Page::get_hierarchy_path` (`aggregates.rs` lines 232-243): ancestors
reversed, then the target block itself when present. -/
def getHierarchyPathFuel (fuel : Nat) (page : Page) (blockId : String) :
    Option (List Block) :=
  match getAncestorsFuel fuel page blockId with
  | none => none
  | some ancestors =>
    let path := ancestors.reverse
    match hmGet page.blocks blockId with
    | some block => some (path ++ [block])
    | none => some path

/-- `Page::all_urls`: URLs flattened over the map's iteration order (modelled
by the association-list order). -/
def Page.allUrls (p : Page) : List String :=
  p.blocks.flatMap (fun kv => kv.2.urls)

/-- `Page::all_page_references`. -/
def Page.allPageReferences (p : Page) : List PageRef :=
  p.blocks.flatMap (fun kv => kv.2.pageReferences)

/-- The per-block body of `Page::get_urls_with_context`: for each URL of the
block, pair it with the flattened page references of the block's ancestors
and descendants (the source recomputes the two traversals per URL; they do
not depend on the URL, so they are computed once here). -/
def urlsWithContextOfBlock (fuel : Nat) (page : Page) (b : Block) :
    Option (List (String × List PageRef × List PageRef)) :=
  match getAncestorsFuel fuel page b.id with
  | none => none
  | some ancestors =>
    match getDescendantsFuel fuel page b.id with
    | none => none
    | some descendants =>
      let ancestorRefs := ancestors.flatMap (fun a => a.pageReferences)
      let descendantRefs := descendants.flatMap (fun d => d.pageReferences)
      some (b.urls.map (fun url => (url, ancestorRefs, descendantRefs)))

/-- `Page::get_urls_with_context` (`aggregates.rs` lines 181-203), iterating
blocks in the map's iteration order. -/
def getUrlsWithContextFuel (fuel : Nat) (page : Page) :
    Option (List (String × List PageRef × List PageRef)) :=
  page.blocks.foldr
    (fun kv acc =>
      match urlsWithContextOfBlock fuel page kv.2 with
      | none => none
      | some xs =>
        match acc with
        | none => none
        | some rest => some (xs ++ rest))
    (some [])

/-! ### Markdown parser (`infrastructure/parsers/logseq_markdown.rs`) -/

/-- Parser error type, mirroring `ParseError` (the `Io` variant carries no
payload here since file I/O is outside the embedding). -/
inductive ParseError where
  | io
  | invalidMarkdown (msg : String)
  | domain (e : DomainError)
  deriving DecidableEq, Repr

/-- The loop body of `LogseqMarkdownParser::calculate_indent_level`
(lines 88-106).  Faithful to the source's use of a single `Chars` iterator:
the `' '` arm calls `chars.next()` again, consuming the following character
whatever it is, and the loop then continues after that consumed character. -/
def calcIndentLoop : List Char → Nat → Nat
  | [], indent => indent
  | c :: rest, indent =>
    if c = '\t' then calcIndentLoop rest (indent + 1)
    else if c = ' ' then
      match rest with
      | [] => indent
      | c2 :: rest2 =>
        if c2 = ' ' then calcIndentLoop rest2 (indent + 1)
        else calcIndentLoop rest2 indent
    else indent

/-- `LogseqMarkdownParser::calculate_indent_level`. -/
def calculateIndentLevel (line : String) : Nat :=
  calcIndentLoop line.toList 0

/-- Indent level as the specification describes it (`spec.md` §4.2 "Indent
detection"): scan only the leading whitespace, one level per tab, one level
per complete pair of spaces, a trailing single space counts nothing, and the
first non-whitespace character terminates the scan. -/
def specIndentLevel : List Char → Nat
  | '\t' :: rest => specIndentLevel rest + 1
  | ' ' :: ' ' :: rest => specIndentLevel rest + 1
  | ' ' :: '\t' :: rest => specIndentLevel rest + 1
  | _ => 0

/-- `LogseqMarkdownParser::extract_content` (lines 109-120): trim leading
whitespace, then strip a `-`/`*`/`+` bullet marker (with or without a
following space). -/
def extractContent (line : String) : String :=
  let trimmed := line.toList.dropWhile (fun c => c.isWhitespace)
  match trimmed with
  | [] => ""
  | c :: rest =>
    if c = '-' ∨ c = '*' ∨ c = '+' then
      match rest with
      | ' ' :: rest2 => String.mk rest2
      | _ => String.mk (rest.dropWhile (fun ch => ch.isWhitespace))
    else String.mk trimmed

/-- `LogseqMarkdownParser::parse_blocks` (lines 61-85): skip blank lines,
compute the indent level, strip the bullet, skip lines whose stripped content
is blank.  The source's `Result` never carries an error here. -/
def parseBlocks (lines : List String) : List (Nat × String) :=
  lines.filterMap (fun line =>
    if line.trim.isEmpty then none
    else
      let indentLevel := calculateIndentLevel line
      let content := extractContent line
      if content.trim.isEmpty then none
      else some (indentLevel, content))

/-- Rust `char::is_ascii_punctuation`. -/
def isAsciiPunctChar (c : Char) : Bool :=
  (0x21 ≤ c.toNat ∧ c.toNat ≤ 0x2F) ∨ (0x3A ≤ c.toNat ∧ c.toNat ≤ 0x40) ∨
  (0x5B ≤ c.toNat ∧ c.toNat ≤ 0x60) ∨ (0x7B ≤ c.toNat ∧ c.toNat ≤ 0x7E)

/-- Rust `str::split_whitespace` on a character list: maximal runs of
non-whitespace characters (`acc` holds the current run in reverse). -/
def splitWhitespaceAux : List Char → List Char → List (List Char)
  | [], acc => if acc.isEmpty then [] else [acc.reverse]
  | c :: rest, acc =>
    if c.isWhitespace then
      if acc.isEmpty then splitWhitespaceAux rest []
      else acc.reverse :: splitWhitespaceAux rest []
    else splitWhitespaceAux rest (c :: acc)

/-- Rust `str::split_whitespace`. -/
def splitWhitespace (s : String) : List String :=
  (splitWhitespaceAux s.toList []).map (fun cs => String.mk cs)

/-- `word.trim_end_matches(|c| c.is_ascii_punctuation())`. -/
def trimEndPunct (w : List Char) : List Char :=
  ((w.reverse).dropWhile isAsciiPunctChar).reverse

/-- Whether the character list starts with the given pattern
(Rust `str::starts_with`). -/
def startsWithCL : List Char → List Char → Bool
  | _, [] => true
  | [], _ :: _ => false
  | c :: s, d :: pat => c = d ∧ startsWithCL s pat

/-- `LogseqMarkdownParser::extract_urls` (lines 183-201).  `Url::new` only
checks non-emptiness and the scheme, which the branch already guarantees, so
it never fails here. -/
def extractUrls (content : String) : List String :=
  (splitWhitespaceAux content.toList []).filterMap (fun w =>
    let cleaned := trimEndPunct w
    if startsWithCL cleaned "http://".toList ∨ startsWithCL cleaned "https://".toList then
      some (String.mk cleaned)
    else none)

mutual

/-- The outer scanner of `LogseqMarkdownParser::extract_page_references`
(lines 204-264), recast from index-based iteration to recursion on the
remaining characters; `prev` is the character before the current position
(`none` at the start), used by the `#` word-boundary test. -/
def refsOuter : List Char → Option Char → List PageRef
  | [], _ => []
  | '[' :: '[' :: tail, _ => refsBracket tail []
  | '#' :: rest, prev =>
    let atWordBoundary := match prev with
      | none => true
      | some p => p.isWhitespace
    if atWordBoundary && !rest.isEmpty then refsTag rest []
    else refsOuter rest (some '#')
  | c :: rest, _ => refsOuter rest (some c)
  termination_by chars _ => (chars.length, 0)

/-- The inner `]]`-search of `extract_page_references`: accumulate characters
(newest first in `acc`); on `]]` emit the reference when non-empty and resume
the outer scan after it; when fewer than two characters remain, resume the
outer scan at the current position (the reference is dropped). -/
def refsBracket : List Char → List Char → List PageRef
  | c1 :: c2 :: tail, acc =>
    if c1 = ']' ∧ c2 = ']' then
      (if acc.isEmpty then [] else [PageRef.mk (String.mk acc.reverse) false]) ++
        refsOuter tail (some ']')
    else refsBracket (c2 :: tail) (c1 :: acc)
  | remaining, acc => refsOuter remaining (some (acc.headD '['))
  termination_by chars _ => (chars.length, 1)

/-- The tag-collecting loop of `extract_page_references`: consume
non-whitespace, non-punctuation characters, emit the tag when non-empty, then
resume the outer scan. -/
def refsTag : List Char → List Char → List PageRef
  | c :: rest, acc =>
    if ¬ c.isWhitespace ∧ ¬ isAsciiPunctChar c then refsTag rest (c :: acc)
    else
      (if acc.isEmpty then [] else [PageRef.mk (String.mk acc.reverse) true]) ++
        refsOuter (c :: rest) (some (acc.headD '#'))
  | [], acc =>
    (if acc.isEmpty then [] else [PageRef.mk (String.mk acc.reverse) true]) ++
      refsOuter [] (some (acc.headD '#'))
  termination_by chars _ => (chars.length, 1)

end

/-- `LogseqMarkdownParser::extract_page_references`. -/
def extractPageReferences (content : String) : List PageRef :=
  refsOuter content.toList none

/-- The per-line body of `LogseqMarkdownParser::build_hierarchy`
(lines 123-180).  The parent stack `HashMap<usize, BlockId>` is modelled as a
function `Nat → Option String` (only `insert`, `get` and `retain` are used);
the freshly generated UUID block ids are modelled by a counter producing
distinct ids `block-0`, `block-1`, …  (`BlockId::new` cannot fail on these
non-empty strings). -/
def buildHierarchyStep (page : Page) (stack : Nat → Option String) (counter : Nat)
    (indentLevel : Nat) (content : String) :
    Except ParseError (Page × (Nat → Option String) × Nat) :=
  let blockId := "block-" ++ toString counter
  let urls := extractUrls content
  let pageRefs := extractPageReferences content
  let blockE : Except ParseError Block :=
    if indentLevel = 0 then Except.ok (Block.newRoot blockId content)
    else
      match stack (indentLevel - 1) with
      | none => Except.error (ParseError.invalidMarkdown
          ("No parent block found for indent level " ++ toString indentLevel))
      | some parentId => Except.ok (Block.newChild blockId content parentId indentLevel)
  match blockE with
  | Except.error e => Except.error e
  | Except.ok block0 =>
    let block1 := urls.foldl Block.addUrl block0
    let block2 := pageRefs.foldl Block.addPageReference block1
    match page.addBlock block2 with
    | Except.error e => Except.error (ParseError.domain e)
    | Except.ok page2 =>
      let stack2 : Nat → Option String := fun l =>
        if l = indentLevel then some blockId
        else if l ≤ indentLevel then stack l else none
      Except.ok (page2, stack2, counter + 1)

/-- The fold of `build_hierarchy` over the parsed `(indent, content)` pairs,
with `?`-style error propagation. -/
def buildHierarchyGo : Page → (Nat → Option String) → Nat → List (Nat × String) →
    Except ParseError Page
  | page, _, _, [] => Except.ok page
  | page, stack, n, (lvl, content) :: rest =>
    match buildHierarchyStep page stack n lvl content with
    | Except.error e => Except.error e
    | Except.ok (page2, stack2, n2) => buildHierarchyGo page2 stack2 n2 rest

/-- `LogseqMarkdownParser::build_hierarchy`: start from the empty parent
stack and counter 0. -/
def buildHierarchy (page : Page) (blocks : List (Nat × String)) : Except ParseError Page :=
  buildHierarchyGo page (fun _ => none) 0 blocks

/-- Rust `str::lines`: split on `'\n'` and strip one trailing `'\r'` per
line.  (Rust also drops a final empty segment after a trailing newline;
`parse_blocks` discards blank lines, so the difference is unobservable
downstream.) -/
def linesOf (content : String) : List String :=
  (content.splitOn "\n").map (fun l =>
    if l.toList.getLast? = some '\r' then String.mk l.toList.dropLast else l)

/-- `LogseqMarkdownParser::parse_content`. -/
def parseContent (content : String) (pageId title : String) : Except ParseError Page :=
  buildHierarchy (Page.new pageId title) (parseBlocks (linesOf content))

/-! ### Text preprocessor (`infrastructure/embeddings/text_preprocessor.rs`) -/

/-- `words[start..end].join(" ")`. -/
def joinWords (ws : List String) : String := String.intercalate " " ws

/-- The `while start < words.len()` loop of `TextPreprocessor::chunk_text`
(lines 87-99), fuel-indexed: the source loop does not terminate when
`overlap_words ≥ max_words`, so `none` reports fuel exhaustion. -/
def chunkLoop : Nat → List String → Nat → Nat → Nat → List String → Option (List String)
  | 0, _, _, _, _, _ => none
  | fuel + 1, words, maxWords, overlapWords, start, chunks =>
    if start < words.length then
      let e := min (start + maxWords) words.length
      let chunk := joinWords ((words.drop start).take (e - start))
      if words.length ≤ e then some (chunks ++ [chunk])
      else chunkLoop fuel words maxWords overlapWords (e - overlapWords) (chunks ++ [chunk])
    else some chunks

/-- `TextPreprocessor::chunk_text` (lines 72-102). -/
def chunkTextFuel (fuel : Nat) (text : String) (maxWords overlapWords : Nat) :
    Option (List String) :=
  let words := splitWhitespace text
  if words.length ≤ maxWords then some [text]
  else chunkLoop fuel words maxWords overlapWords 0 []

/-! ### Keyword search (`application/use_cases/search.rs`)

The `f32` score literals are modelled as rationals; `str::to_lowercase` is
modelled per character (the corpus-relevant ASCII fragment coincides). -/

/-- Search result payload for a page match (`dto` `PageResult`). -/
structure PageResult where
  pageId : String
  title : String
  blockCount : Nat
  urls : List String
  pageReferences : List PageRef
  deriving DecidableEq, Repr

/-- Search result payload for a block match (`dto` `BlockResult`). -/
structure BlockResult where
  blockId : String
  content : String
  pageId : String
  pageTitle : String
  hierarchyPath : List String
  relatedPages : List PageRef
  relatedUrls : List String
  deriving DecidableEq, Repr

/-- Search result payload for a URL match (`dto` `UrlResult`). -/
structure UrlResult where
  url : String
  containingBlockId : String
  containingBlockContent : String
  pageId : String
  pageTitle : String
  ancestorPageRefs : List PageRef
  descendantPageRefs : List PageRef
  deriving DecidableEq, Repr

/-- `dto` `SearchItem`. -/
inductive SearchItem where
  | page (r : PageResult)
  | block (r : BlockResult)
  | url (r : UrlResult)
  deriving DecidableEq, Repr

/-- `dto` `SearchResult`: item plus score.  The `f32` score is one of the
four literals 1.0 / 0.9 / 0.8 / 0.7, only ever assigned and compared, and is
represented exactly in tenths (10 / 9 / 8 / 7) so that concrete searches
evaluate inside the kernel. -/
structure SearchResult where
  item : SearchItem
  score : Nat
  deriving DecidableEq, Repr

/-- `str::to_lowercase`, per character. -/
def strToLower (s : String) : String := String.mk (s.toList.map Char.toLower)

/-- Substring containment on character lists (Rust `str::contains` with a
string pattern). -/
def clContains : List Char → List Char → Bool
  | [], needle => needle.isEmpty
  | c :: rest, needle => startsWithCL (c :: rest) needle || clContains rest needle

/-- Rust `str::contains`. -/
def strContains (s q : String) : Bool := clContains s.toList q.toList

/-- Rust `str::starts_with`. -/
def strStartsWith (s q : String) : Bool := startsWithCL s.toList q.toList

/-- `SearchPagesAndBlocks::search_page` (lines 90-115); `query` is the
already-lowercased query string. -/
def searchPage (page : Page) (query : String) : Option SearchResult :=
  let titleLower := strToLower page.title
  if strContains titleLower query then
    let score : Nat :=
      if titleLower = query then 10
      else if strStartsWith titleLower query then 9
      else 7
    some { item := SearchItem.page
             { pageId := page.id, title := page.title,
               blockCount := page.blocks.length, urls := page.allUrls,
               pageReferences := page.allPageReferences },
           score := score }
  else none

/-- The `for block in page.all_blocks()` loop of
`SearchPagesAndBlocks::search_blocks` (lines 117-168), fuel-indexed for the
ancestor/descendant traversals, emitting matches in iteration order. -/
def searchBlocksGo (fuel : Nat) (page : Page) (query : String) :
    List (String × Block) → Option (List SearchResult)
  | [] => some []
  | kv :: rest =>
    let b := kv.2
    let contentLower := strToLower b.content
    if strContains contentLower query then
      let score : Nat :=
        if contentLower = query then 10
        else if strStartsWith contentLower query then 9
        else 7
      match getHierarchyPathFuel fuel page b.id, getAncestorsFuel fuel page b.id,
          getDescendantsFuel fuel page b.id with
      | some path, some ancestors, some descendants =>
        match searchBlocksGo fuel page query rest with
        | none => none
        | some rs =>
          some ({ item := SearchItem.block
                    { blockId := b.id, content := b.content, pageId := page.id,
                      pageTitle := page.title,
                      hierarchyPath := path.map (fun blk => blk.content),
                      relatedPages := ancestors.flatMap (fun a => a.pageReferences) ++
                        descendants.flatMap (fun d => d.pageReferences),
                      relatedUrls := ancestors.flatMap (fun a => a.urls) ++
                        descendants.flatMap (fun d => d.urls) },
                  score := score } :: rs)
      | _, _, _ => none
    else searchBlocksGo fuel page query rest

/-- `SearchPagesAndBlocks::search_blocks`. -/
def searchBlocksFuel (fuel : Nat) (page : Page) (query : String) :
    Option (List SearchResult) :=
  searchBlocksGo fuel page query page.blocks

/-- `SearchPagesAndBlocks::search_urls` (lines 170-207), fuel-indexed via
`get_urls_with_context`. -/
def searchUrlsFuel (fuel : Nat) (page : Page) (query : String) :
    Option (List SearchResult) :=
  match getUrlsWithContextFuel fuel page with
  | none => none
  | some ctxs =>
    some (ctxs.filterMap (fun ctx =>
      let url := ctx.1
      let ancestorRefs := ctx.2.1
      let descendantRefs := ctx.2.2
      let urlStr := strToLower url
      if strContains urlStr query then
        let score : Nat := if urlStr = query then 10 else 8
        match page.blocks.find? (fun kv => url ∈ kv.2.urls) with
        | some kv =>
          some { item := SearchItem.url
                   { url := url, containingBlockId := kv.2.id,
                     containingBlockContent := kv.2.content, pageId := page.id,
                     pageTitle := page.title, ancestorPageRefs := ancestorRefs,
                     descendantPageRefs := descendantRefs },
                 score := score }
        | none => none
      else none))

/-! ### Sync service (`application/services/sync_service.rs`)

The file system is modelled as a list of files (path, content, mtime as a
`Nat` timestamp) in the scanner's discovery order; the repository behind the
async mutex is modelled as an id-keyed list of pages; the parse and save
calls performed by `sync_file` are additionally recorded as an effect trace
so that "no parse, no save" is expressible. -/

/-- `FileMetadata` of the sync registry. -/
structure FileMeta where
  title : String
  lastModified : Nat
  deriving DecidableEq, Repr

/-- `SyncSummary`. -/
structure SyncSummary where
  filesCreated : Nat
  filesUpdated : Nat
  filesDeleted : Nat
  filesUnchanged : Nat
  errors : List (String × String)
  deriving DecidableEq, Repr

/-- Repository / parser calls performed during a sync, recorded for the
"no parse and no repository save" part of the unchanged-directory claim. -/
inductive SyncEffect where
  | parseFile (path : String)
  | saveRepo (pageId : String)
  | deleteRepo (pageId : String)
  deriving DecidableEq, Repr

/-- A file on disk as the scanner reports it. -/
structure SFile where
  path : String
  content : String
  mtime : Nat
  deriving DecidableEq, Repr

/-- Registry lookup (`HashMap<PathBuf, FileMetadata>::get`). -/
def regLookup : List (String × FileMeta) → String → Option FileMeta
  | [], _ => none
  | (k, v) :: rest, key => if k = key then some v else regLookup rest key

/-- Registry insert (replace in place or append). -/
def regInsert : List (String × FileMeta) → String → FileMeta → List (String × FileMeta)
  | [], key, v => [(key, v)]
  | (k, w) :: rest, key, v =>
    if k = key then (key, v) :: rest else (k, w) :: regInsert rest key v

/-- Registry remove. -/
def regRemove : List (String × FileMeta) → String → List (String × FileMeta)
  | [], _ => []
  | (k, v) :: rest, key => if k = key then rest else (k, v) :: regRemove rest key

/-- `PageRepository::find_by_title` on the id-keyed list repository. -/
def repoFindByTitle (repo : List Page) (title : String) : Option Page :=
  repo.find? (fun p => p.title = title)

/-- `PageRepository::save` (upsert by page id). -/
def repoSave (repo : List Page) (page : Page) : List Page :=
  if repo.any (fun q => q.id = page.id) then
    repo.map (fun q => if q.id = page.id then page else q)
  else repo ++ [page]

/-- `PageRepository::delete` by page id. -/
def repoDelete (repo : List Page) (id : String) : List Page :=
  repo.filter (fun q => q.id ≠ id)

/-- Rust `Path::file_stem` (component after the last `/`, then the part
before the last `.`; the hidden-file corner case does not arise for the
`*.md` files the scanner yields). -/
def fileStem (path : String) : String :=
  let name := (path.splitOn "/").getLastD ""
  let parts := name.splitOn "."
  if parts.length ≤ 1 then name else String.intercalate "." parts.dropLast

/-- A rendering of `ParseError` for the sync error list (Rust records
`e.to_string()`). -/
def parseErrorMsg : ParseError → String
  | ParseError.io => "IO error"
  | ParseError.invalidMarkdown m => "Invalid markdown structure: " ++ m
  | ParseError.domain _ => "Domain error"

/-- Mutable state threaded through `sync_once`: the sync registry, the
repository, and the UUID counter for fresh page ids. -/
structure SyncState where
  registry : List (String × FileMeta)
  repo : List Page
  counter : Nat
  deriving DecidableEq, Repr

/-- `SyncService::sync_file` (lines 171-238): decide `needs_sync` from the
registry mtime, and in the positive case look up the title, parse, save,
update the registry and bump the created/updated counter; otherwise only
bump the unchanged counter.  Parse failures leave registry and repository
untouched and are recorded by the caller (modelled here directly in
`summary.errors`, as `sync_once` does on the propagated error). -/
def syncFile (st : SyncState) (summary : SyncSummary) (effects : List SyncEffect)
    (f : SFile) : SyncState × SyncSummary × List SyncEffect :=
  let title := fileStem f.path
  let needsSync :=
    match regLookup st.registry f.path with
    | some meta => decide (meta.lastModified < f.mtime)
    | none => true
  if needsSync then
    let existing := repoFindByTitle st.repo title
    match parseContent f.content ("page-" ++ toString st.counter) title with
    | Except.error e =>
      ({ st with counter := st.counter + 1 },
       { summary with errors := summary.errors ++ [(f.path, parseErrorMsg e)] },
       effects ++ [SyncEffect.parseFile f.path])
    | Except.ok page =>
      let st2 : SyncState :=
        { registry := regInsert st.registry f.path { title := title, lastModified := f.mtime },
          repo := repoSave st.repo page,
          counter := st.counter + 1 }
      let summary2 :=
        if existing.isSome then { summary with filesUpdated := summary.filesUpdated + 1 }
        else { summary with filesCreated := summary.filesCreated + 1 }
      (st2, summary2, effects ++ [SyncEffect.parseFile f.path, SyncEffect.saveRepo page.id])
  else
    (st, { summary with filesUnchanged := summary.filesUnchanged + 1 }, effects)

/-- `SyncService::handle_deletions` (lines 241-277): for each registry entry
whose path is gone, remove it from the registry and delete the page found by
its recorded title (the model's `delete` always succeeds, matching
`repo.delete(..).is_ok()` on the embedded repository). -/
def handleDeletionsGo : List (String × FileMeta) → SyncState → Nat → List SyncEffect →
    SyncState × Nat × List SyncEffect
  | [], st, n, effs => (st, n, effs)
  | (path, meta) :: rest, st, n, effs =>
    let registry2 := regRemove st.registry path
    match repoFindByTitle st.repo meta.title with
    | some page =>
      handleDeletionsGo rest
        { registry := registry2, repo := repoDelete st.repo page.id, counter := st.counter }
        (n + 1) (effs ++ [SyncEffect.deleteRepo page.id])
    | none =>
      handleDeletionsGo rest
        { registry := registry2, repo := st.repo, counter := st.counter } n effs

/-- `SyncService::sync_once` (lines 107-168): process every discovered file,
then handle deletions of registry entries whose path is no longer present,
and report the summary. -/
def syncOnce (files : List SFile) (st : SyncState) :
    SyncState × SyncSummary × List SyncEffect :=
  let init : SyncSummary :=
    { filesCreated := 0, filesUpdated := 0, filesDeleted := 0,
      filesUnchanged := 0, errors := [] }
  let step := files.foldl
    (fun acc f => syncFile acc.1 acc.2.1 acc.2.2 f) (st, init, [])
  let currentPaths := files.map (fun f => f.path)
  let toDelete := step.1.registry.filter (fun kv => ¬ currentPaths.contains kv.1)
  let deletions := handleDeletionsGo toDelete step.1 0 step.2.2
  (deletions.1, { step.2.1 with filesDeleted := deletions.2.1 }, deletions.2.2)

/-! ### SQLite page repository
(`infrastructure/persistence/sqlite_page_repository.rs` with the schema of
`infrastructure/persistence/schema.rs`)

Tables are lists of rows in rowid (insertion) order.  `ORDER BY` on a
non-unique column is a stable sort of that order (SQLite leaves ties
unspecified; rowid order is the deterministic refinement used here). -/

/-- A row of the `blocks` table. -/
structure BlockRow where
  id : String
  pageId : String
  parentId : Option String
  content : String
  indentLevel : Nat
  position : Nat
  deriving DecidableEq, Repr

/-- The five-table database (timestamps and autoincrement ids omitted:
nothing reads them back). -/
structure Db where
  pages : List (String × String)
  blocks : List BlockRow
  urls : List (String × String)
  pageRefs : List (String × String × Bool)
  blockChildren : List (String × String × Nat)
  deriving DecidableEq, Repr

/-- The empty database produced by `initialize_database`. -/
def Db.empty : Db :=
  { pages := [], blocks := [], urls := [], pageRefs := [], blockChildren := [] }

/-- `INSERT OR REPLACE INTO pages` keyed on the primary key `id`. -/
def pagesUpsert : List (String × String) → String → String → List (String × String)
  | [], id, title => [(id, title)]
  | (k, t) :: rest, id, title =>
    if k = id then (id, title) :: rest else (k, t) :: pagesUpsert rest id title

/-- `DELETE FROM blocks WHERE page_id = ?`, with the schema's
`ON DELETE CASCADE` clauses removing the dependent `urls`, `page_references`
and `block_children` rows. -/
def dbDeleteBlocksOfPage (db : Db) (pageId : String) : Db :=
  let removed := (db.blocks.filter (fun r => r.pageId = pageId)).map (fun r => r.id)
  { pages := db.pages,
    blocks := db.blocks.filter (fun r => r.pageId ≠ pageId),
    urls := db.urls.filter (fun u => ¬ removed.contains u.1),
    pageRefs := db.pageRefs.filter (fun r => ¬ removed.contains r.1),
    blockChildren := db.blockChildren.filter
      (fun c => ¬ (removed.contains c.1 ∨ removed.contains c.2.1)) }

/-- Stable insertion by key (used to model Rust's stable `sort_by_key` and
SQL `ORDER BY` with rowid-order ties). -/
def insertByKey {α : Type} (key : α → Nat) (x : α) : List α → List α
  | [] => [x]
  | y :: ys => if key x ≤ key y then x :: y :: ys else y :: insertByKey key x ys

/-- Stable sort by a `Nat` key. -/
def stableSortByKey {α : Type} (key : α → Nat) (l : List α) : List α :=
  l.foldr (insertByKey key) []

/-- `SqlitePageRepository::save_page_transaction` (lines 38-111).
`enumBlocks` is the sequence `page.all_blocks().collect()` — one admissible
iteration order of the block `HashMap` (Rust's `HashMap` iteration order is
arbitrary).  First pass inserts block, URL and reference rows in ascending
indent order (stable sort); the `position` column of `blocks` is always 0;
the second pass inserts `block_children` rows with positions. -/
def savePageTransaction (db : Db) (page : Page) (enumBlocks : List Block) : Db :=
  let db1 := { db with pages := pagesUpsert db.pages page.id page.title }
  let db2 := dbDeleteBlocksOfPage db1 page.id
  let sorted := stableSortByKey (fun b => b.indentLevel) enumBlocks
  let db3 := sorted.foldl
    (fun acc b =>
      { acc with
        blocks := acc.blocks ++
          [{ id := b.id, pageId := page.id, parentId := b.parentId,
             content := b.content, indentLevel := b.indentLevel, position := 0 }],
        urls := acc.urls ++ b.urls.map (fun u => (b.id, u)),
        pageRefs := acc.pageRefs ++
          b.pageReferences.map (fun r => (b.id, r.title, r.isTag)) })
    db2
  sorted.foldl
    (fun acc b =>
      { acc with blockChildren := acc.blockChildren ++
          (b.childIds.enum.map (fun ci => (b.id, ci.2, ci.1))) })
    db3

/-- `SqlitePageRepository::load_page` (lines 114-262): select the page row,
the page's block rows ordered by the (all-zero) `position` column, group the
URL and reference rows per block, load the `block_children` rows ordered by
`position` (the source builds this `child_map` and never uses it), rebuild
the blocks, sort them by ascending indent level, and re-add them through
`Page::add_block`. -/
def loadPage (db : Db) (pageId : String) : Except DomainError (Option Page) :=
  match db.pages.find? (fun p => p.1 = pageId) with
  | none => Except.ok none
  | some pageRow =>
    let title := pageRow.2
    let pageRows := db.blocks.filter (fun r => r.pageId = pageId)
    let blocksData := stableSortByKey (fun r => r.position) pageRows
    let pageBlockIds := pageRows.map (fun r => r.id)
    let urlsData := db.urls.filter (fun u => pageBlockIds.contains u.1)
    let refsData := db.pageRefs.filter (fun r => pageBlockIds.contains r.1)
    let childrenData := stableSortByKey (fun c => c.2.2)
      (db.blockChildren.filter (fun c => pageBlockIds.contains c.1))
    let _childMap := childrenData.map (fun c => (c.1, c.2.1))
    let urlsFor := fun (bid : String) =>
      (urlsData.filter (fun u => u.1 = bid)).map (fun u => u.2)
    let refsFor := fun (bid : String) =>
      (refsData.filter (fun r => r.1 = bid)).map (fun r => PageRef.mk r.2.1 r.2.2)
    let blocksToAdd := blocksData.map (fun row =>
      let base :=
        match row.parentId with
        | some pid => Block.newChild row.id row.content pid row.indentLevel
        | none => Block.newRoot row.id row.content
      let withUrls := (urlsFor row.id).foldl Block.addUrl base
      (refsFor row.id).foldl Block.addPageReference withUrls)
    let sortedAdd := stableSortByKey (fun b => b.indentLevel) blocksToAdd
    let res := sortedAdd.foldl
      (fun acc b =>
        match acc with
        | Except.error e => Except.error e
        | Except.ok pg => pg.addBlock b)
      (Except.ok (Page.new pageId title))
    match res with
    | Except.error e => Except.error e
    | Except.ok pg => Except.ok (some pg)

/-! ### Embedding value objects (`domain/value_objects.rs`) -/

/-- The computed magnitude of `EmbeddingVector::cosine_similarity`:
`dimensions.iter().map(|x| x * x).sum::<f32>().sqrt()`.  `f32` arithmetic is
modelled over `ℚ` with `Rat.sqrt` standing in for `f32::sqrt`; like the `f32`
square root on the non-negative sums of squares arising here, `Rat.sqrt` is
zero exactly on zero, so the `magnitude == 0.0` guard is faithful. -/
def magnitudeQ (v : List ℚ) : ℚ :=
  Rat.sqrt (v.foldl (fun s x => s + x * x) 0)

/-- `EmbeddingVector::cosine_similarity` (lines 408-430): error on mismatched
dimension counts, and `Ok(0.0)` — skipping the division — when either
magnitude is zero. -/
def cosineSimilarity (a b : List ℚ) : Except DomainError ℚ :=
  if a.length ≠ b.length then
    Except.error (DomainError.invalidOperation
      "Cannot calculate similarity between vectors of different dimensions")
  else
    let dotProduct := (a.zip b).foldl (fun s p => s + p.1 * p.2) 0
    let magnitudeA := magnitudeQ a
    let magnitudeB := magnitudeQ b
    if magnitudeA = 0 ∨ magnitudeB = 0 then Except.ok 0
    else Except.ok (dotProduct / (magnitudeA * magnitudeB))

/-! ### Invariants and auxiliary predicates -/

/-- The structural invariants claimed for every page (spec §3 invariants
1-3 / §8 first bullet): a parentless block's key is in `rootBlockIds`,
`rootBlockIds` holds nothing but parentless keys and no duplicates, and a
parented block's parent exists and lists it exactly once in `childIds`. -/
def StructuralInvariants (p : Page) : Prop :=
  (∀ kb ∈ p.blocks,
    (kb.2.parentId = none → kb.1 ∈ p.rootBlockIds) ∧
    (∀ pid, kb.2.parentId = some pid →
      ∃ pb, hmGet p.blocks pid = some pb ∧ pb.childIds.count kb.1 = 1)) ∧
  (∀ r ∈ p.rootBlockIds, ∃ b, hmGet p.blocks r = some b ∧ b.parentId = none) ∧
  p.rootBlockIds.Nodup

/-- Full well-formedness of a page: the claimed structural invariants
together with the bookkeeping facts (unique keys, key/id agreement, sound
child links, an acyclicity measure) that make them inductive. -/
structure PageWF (p : Page) : Prop where
  keysNodup : (hmKeys p.blocks).Nodup
  selfId : ∀ k b, hmGet p.blocks k = some b → b.id = k
  rootsSound : ∀ r ∈ p.rootBlockIds, ∃ b, hmGet p.blocks r = some b ∧ b.parentId = none
  rootsComplete : ∀ k b, hmGet p.blocks k = some b → b.parentId = none → k ∈ p.rootBlockIds
  rootsNodup : p.rootBlockIds.Nodup
  parentChild : ∀ k b pid, hmGet p.blocks k = some b → b.parentId = some pid →
    ∃ pb, hmGet p.blocks pid = some pb ∧ pb.childIds.count k = 1
  childSound : ∀ k b c, hmGet p.blocks k = some b → c ∈ b.childIds →
    ∃ cb, hmGet p.blocks c = some cb ∧ cb.parentId = some k
  acyclic : ∃ f : String → Nat, ∀ k b pid, hmGet p.blocks k = some b →
    b.parentId = some pid → hmContains p.blocks pid → f pid < f k

/-- `x` lies in the subtree rooted at `root`: the `parentId` chain from `x`
(through blocks present in the map) reaches `root`. -/
inductive Chain (p : Page) (root : String) : String → Prop where
  | refl : Chain p root root
  | step (x : String) (b : Block) (pid : String) :
      hmGet p.blocks x = some b → b.parentId = some pid → Chain p root pid →
      Chain p root x

/-- Pages reachable through the aggregate's lifecycle: created empty, grown
by `add_block` on freshly-generated ids of newly-constructed blocks (as
`new_root` / `new_child` produce: empty `childIds`, UUID-fresh id), and
shrunk by `remove_block` runs that finished within their fuel. -/
inductive Reached : Page → Prop where
  | new (id title : String) : Reached (Page.new id title)
  | add (p : Page) (b : Block) (p2 : Page) :
      Reached p → hmContains p.blocks b.id = false → b.childIds = [] →
      p.addBlock b = Except.ok p2 → Reached p2
  | remove (p : Page) (id : String) (fuel : Nat) (st : Except DomainError Unit)
      (p2 : Page) :
      Reached p → removeBlockFuel fuel p id = some (st, p2) → Reached p2

/-- Invariant carried through the `remove_block` recursion (whose
intermediate states are not fully well-formed): unique keys, sound child
links with no duplicate child entries, parentless roots, and the fixed
acyclicity measure `f`. -/
structure RInv (f : String → Nat) (p : Page) : Prop where
  keysNodup : (hmKeys p.blocks).Nodup
  selfId : ∀ k b, hmGet p.blocks k = some b → b.id = k
  childSound : ∀ k b c, hmGet p.blocks k = some b → c ∈ b.childIds →
    ∃ cb, hmGet p.blocks c = some cb ∧ cb.parentId = some k
  childNodup : ∀ k b, hmGet p.blocks k = some b → b.childIds.Nodup
  rootsOk : ∀ r ∈ p.rootBlockIds, ∃ b, hmGet p.blocks r = some b ∧ b.parentId = none
  meas : ∀ k b pid, hmGet p.blocks k = some b → b.parentId = some pid →
    hmContains p.blocks pid → f pid < f k

/-- Parent-link completeness above an `f`-threshold `t`: every present block
with measure above `t` whose parent is present is listed in that parent's
`childIds` (the blocks detached so far by the recursion all sit at or below
the threshold). -/
def PLink (f : String → Nat) (p : Page) (t : Nat) : Prop :=
  ∀ k b pid pb, hmGet p.blocks k = some b → b.parentId = some pid → t < f k →
    hmGet p.blocks pid = some pb → k ∈ pb.childIds

/-- All keys measure at most `bound`. -/
def KeysBound (f : String → Nat) (bound : Nat) (p : Page) : Prop :=
  ∀ k ∈ hmKeys p.blocks, f k ≤ bound

/-- How a `remove_block` run relates surviving blocks to the original page:
every surviving block was present before with all fields unchanged except
that its `childIds` are restricted to the surviving keys. -/
def BlocksChar (p q : Page) : Prop :=
  ∀ x b2, hmGet q.blocks x = some b2 → ∃ b, hmGet p.blocks x = some b ∧
    b2.id = b.id ∧ b2.content = b.content ∧ b2.indentLevel = b.indentLevel ∧
    b2.parentId = b.parentId ∧ b2.urls = b.urls ∧ b2.pageReferences = b.pageReferences ∧
    b2.childIds = b.childIds.filter (fun c => hmContains q.blocks c)

/-- The surviving `rootBlockIds` are the original ones restricted to the
surviving keys. -/
def RootsChar (p q : Page) : Prop :=
  q.rootBlockIds = p.rootBlockIds.filter (fun r => hmContains q.blocks r)

/-- Induction statement for `remove_block`: with the removal invariant, the
parent links complete above `f id`, keys bounded by `F0` and enough fuel,
removing a present block succeeds and removes exactly the `parentId`-chain
subtree of `id`, restricting the survivors' `childIds` and the root list to
the surviving keys. -/
def RemoveB (f : String → Nat) (F0 fuel : Nat) : Prop :=
  ∀ p id b0, RInv f p → PLink f p (f id) → KeysBound f F0 p →
    hmGet p.blocks id = some b0 → F0 < fuel + f id →
    ∃ p2, removeBlockFuel fuel p id = some (Except.ok (), p2) ∧ RInv f p2 ∧
      (∀ x, hmContains p2.blocks x = true ↔
        (hmContains p.blocks x = true ∧ ¬ Chain p id x)) ∧
      BlocksChar p p2 ∧ RootsChar p p2 ∧ p2.id = p.id ∧ p2.title = p.title

/-- Induction statement for the child-removal loop of `remove_block`: the
pending children all hang below the `f`-threshold `t` from parents at or
below it, and their subtrees are removed in sequence. -/
def RemoveC (f : String → Nat) (F0 fuel : Nat) : Prop :=
  ∀ p t cs, RInv f p → PLink f p t → KeysBound f F0 p → F0 ≤ fuel + t →
    cs.Nodup →
    (∀ c ∈ cs, ∃ bc pc, hmGet p.blocks c = some bc ∧ bc.parentId = some pc ∧
      f pc ≤ t ∧ t < f c) →
    ∃ p2, removeChildrenFuel fuel p cs = some (Except.ok (), p2) ∧ RInv f p2 ∧
      (∀ x, hmContains p2.blocks x = true ↔
        (hmContains p.blocks x = true ∧ ∀ c ∈ cs, ¬ Chain p c x)) ∧
      BlocksChar p p2 ∧ RootsChar p p2 ∧ p2.id = p.id ∧ p2.title = p.title

/-! ### Concrete example pages -/

/-- Plumbing for building example pages: the page produced by a successful
`add_block` (the examples below only use it where the call succeeds). -/
def addBlockOk (p : Page) (b : Block) : Page :=
  match p.addBlock b with
  | Except.ok q => q
  | Except.error _ => p

/-- Example: page with two root blocks `A` and `B`. -/
def pageTwoRoots : Page :=
  addBlockOk (addBlockOk (Page.new "p" "Demo") (Block.newRoot "A" "first root"))
    (Block.newRoot "B" "second root")

/-- A block reusing the existing id `A` but parented under `B` — the
duplicate-id `add_block` input of the invariant counterexample. -/
def dupBlockA : Block := Block.newChild "A" "duplicate id" "B" 1

/-- Example: root `r` with children `a` then `b` and a grandchild `g`
under `a`. -/
def pageFamily : Page :=
  addBlockOk (addBlockOk (addBlockOk (addBlockOk (Page.new "p" "Family")
    (Block.newRoot "r" "root")) (Block.newChild "a" "first child" "r" 1))
    (Block.newChild "b" "second child" "r" 1)) (Block.newChild "g" "grandchild" "a" 2)

/-- Example for the URL-scoring counterexample: one root block holding a URL
that contains the query `"https"` as a proper prefix. -/
def pageWithUrl : Page :=
  addBlockOk (Page.new "p" "Url demo")
    ((Block.newRoot "u" "see the site").addUrl "https://example.com")

/-- Example for the persistence round trip: root `r` with children `a` then
`b` (`childIds = ["a", "b"]`). -/
def savedC2 : Page :=
  addBlockOk (addBlockOk (addBlockOk (Page.new "p" "T")
    (Block.newRoot "r" "root")) (Block.newChild "a" "A" "r" 1))
    (Block.newChild "b" "B" "r" 1)

/-- One admissible iteration order of `savedC2`'s block `HashMap` for
`page.all_blocks().collect()`: the root first, then `b` before `a`. -/
def enumC2 : List Block :=
  [((Block.newRoot "r" "root").addChild "a").addChild "b",
   Block.newChild "b" "B" "r" 1, Block.newChild "a" "A" "r" 1]

/-- The `childIds` of a given block of the page loaded back from the
database (`none` when the load fails or the block is absent). -/
def loadedRootChildIds (db : Db) (pageId rootId : String) : Option (List String) :=
  match loadPage db pageId with
  | Except.ok (some loaded) => (hmGet loaded.blocks rootId).map (fun b => b.childIds)
  | _ => none

/-- The documented page/block score table applied to a lowercased matched
string, in tenths: 1.0 exact, 0.9 prefix, 0.7 contains. -/
def pbScore (matched query : String) : Nat :=
  if matched = query then 10
  else if strStartsWith matched query then 9
  else 7

/-- The score actually assigned to URL matches by `search_urls`, in tenths:
1.0 exact, otherwise 0.8 (including prefix matches). -/
def urlScore (matched query : String) : Nat :=
  if matched = query then 10 else 8

/-! ## Basic association-map lemmas -/

theorem hmGet_insert_self : ∀ (m : List (String × Block)) (k : String) (v : Block),
    hmGet (hmInsert m k v) k = some v := by
  intro m
  induction m with
  | nil => intro k v; simp [hmInsert, hmGet]
  | cons kv rest ih =>
    intro k v
    obtain ⟨a, b⟩ := kv
    by_cases h : a = k
    · simp [hmInsert, h, hmGet]
    · simp [hmInsert, h, hmGet, ih]

theorem hmGet_insert_ne : ∀ (m : List (String × Block)) (k x : String) (v : Block),
    x ≠ k → hmGet (hmInsert m k v) x = hmGet m x := by
  intro m
  induction m with
  | nil => intro k x v hx; simp [hmInsert, hmGet, Ne.symm hx]
  | cons kv rest ih =>
    intro k x v hx
    obtain ⟨a, b⟩ := kv
    by_cases h : a = k
    · subst h
      simp [hmInsert, hmGet, Ne.symm hx]
    · by_cases h2 : a = x
      · subst h2; simp [hmInsert, h, hmGet, Ne.symm h]
      · simp [hmInsert, h, hmGet, h2, ih k x v hx]

theorem hmGet_modify : ∀ (m : List (String × Block)) (k x : String) (f : Block → Block),
    hmGet (hmModify m k f) x = if x = k then (hmGet m k).map f else hmGet m x := by
  intro m
  induction m with
  | nil => intro k x f; by_cases hx : x = k <;> simp [hmModify, hmGet, hx]
  | cons kv rest ih =>
    intro k x f
    obtain ⟨a, b⟩ := kv
    by_cases hak : a = k
    · subst hak
      by_cases hx : x = a
      · subst hx; simp [hmModify, hmGet]
      · simp [hmModify, hmGet, hx, Ne.symm hx]
    · by_cases hax : a = x
      · subst hax
        simp [hmModify, hmGet, hak]
      · simp [hmModify, hmGet, hak, hax, ih k x f]

theorem hmGet_remove_ne : ∀ (m : List (String × Block)) (k x : String),
    x ≠ k → hmGet (hmRemove m k) x = hmGet m x := by
  intro m
  induction m with
  | nil => intro k x hx; simp [hmRemove]
  | cons kv rest ih =>
    intro k x hx
    obtain ⟨a, b⟩ := kv
    by_cases hak : a = k
    · subst hak
      simp [hmRemove, hmGet, Ne.symm hx]
    · by_cases hax : a = x
      · subst hax; simp [hmRemove, hak, hmGet]
      · simp [hmRemove, hak, hmGet, hax, ih k x hx]

theorem hmGet_mem_keys : ∀ (m : List (String × Block)) (k : String) (b : Block),
    hmGet m k = some b → k ∈ hmKeys m := by
  intro m
  induction m with
  | nil => intro k b h; simp [hmGet] at h
  | cons kv rest ih =>
    intro k b h
    obtain ⟨a, v⟩ := kv
    by_cases hak : a = k
    · simp [hmKeys, hak]
    · simp only [hmGet, if_neg hak] at h
      simp only [hmKeys, List.map_cons, List.mem_cons]
      exact Or.inr (ih k b h)

theorem hmGet_isSome_of_mem_keys : ∀ (m : List (String × Block)) (k : String),
    k ∈ hmKeys m → ∃ b, hmGet m k = some b := by
  intro m
  induction m with
  | nil => intro k h; simp [hmKeys] at h
  | cons kv rest ih =>
    intro k h
    obtain ⟨a, v⟩ := kv
    by_cases hak : a = k
    · exact ⟨v, by simp [hmGet, hak]⟩
    · simp only [hmKeys, List.map_cons, List.mem_cons] at h
      rcases h with h | h
      · exact absurd h.symm hak
      · rcases ih k h with ⟨b, hb⟩
        exact ⟨b, by simp [hmGet, hak, hb]⟩

theorem hmGet_remove_self : ∀ (m : List (String × Block)) (k : String),
    (hmKeys m).Nodup → hmGet (hmRemove m k) k = none := by
  intro m
  induction m with
  | nil => intro k _; simp [hmRemove, hmGet]
  | cons kv rest ih =>
    intro k hnd
    obtain ⟨a, v⟩ := kv
    simp only [hmKeys, List.map_cons, List.nodup_cons] at hnd
    by_cases hak : a = k
    · subst hak
      simp only [hmRemove, if_pos rfl]
      cases hrest : hmGet rest a with
      | none => exact hrest
      | some b => exact absurd (hmGet_mem_keys rest a b hrest) hnd.1
    · simp only [hmRemove, if_neg hak, hmGet, if_neg hak]
      exact ih k hnd.2

theorem hmKeys_modify : ∀ (m : List (String × Block)) (k : String) (f : Block → Block),
    hmKeys (hmModify m k f) = hmKeys m := by
  intro m
  induction m with
  | nil => intro k f; simp [hmModify]
  | cons kv rest ih =>
    intro k f
    obtain ⟨a, v⟩ := kv
    by_cases hak : a = k
    · simp [hmModify, hak, hmKeys]
    · simp only [hmModify, if_neg hak, hmKeys, List.map_cons]
      exact congrArg (List.cons a) (ih k f)

theorem hmKeys_remove_sub : ∀ (m : List (String × Block)) (k x : String),
    x ∈ hmKeys (hmRemove m k) → x ∈ hmKeys m := by
  intro m
  induction m with
  | nil => intro k x hx; simp [hmRemove, hmKeys] at hx
  | cons kv rest ih =>
    intro k x hx
    obtain ⟨a, v⟩ := kv
    by_cases hak : a = k
    · subst hak
      simp only [hmRemove, if_pos rfl] at hx
      simp only [hmKeys, List.map_cons, List.mem_cons]
      exact Or.inr hx
    · simp only [hmRemove, if_neg hak, hmKeys, List.map_cons, List.mem_cons] at hx
      simp only [hmKeys, List.map_cons, List.mem_cons]
      rcases hx with hx | hx
      · exact Or.inl hx
      · exact Or.inr (ih k x hx)

theorem hmKeys_remove_nodup : ∀ (m : List (String × Block)) (k : String),
    (hmKeys m).Nodup → (hmKeys (hmRemove m k)).Nodup := by
  intro m
  induction m with
  | nil => intro k hnd; simpa [hmRemove] using hnd
  | cons kv rest ih =>
    intro k hnd
    obtain ⟨a, v⟩ := kv
    simp only [hmKeys, List.map_cons, List.nodup_cons] at hnd
    by_cases hak : a = k
    · simpa [hmRemove, hak, hmKeys] using hnd.2
    · simp only [hmRemove, if_neg hak, hmKeys, List.map_cons, List.nodup_cons]
      exact ⟨fun hmem => hnd.1 (hmKeys_remove_sub rest k a hmem), ih k hnd.2⟩

theorem hmKeys_insert_of_mem : ∀ (m : List (String × Block)) (k : String) (v : Block),
    k ∈ hmKeys m → hmKeys (hmInsert m k v) = hmKeys m := by
  intro m
  induction m with
  | nil => intro k v h; simp [hmKeys] at h
  | cons kv rest ih =>
    intro k v h
    obtain ⟨a, w⟩ := kv
    by_cases hak : a = k
    · simp [hmInsert, hak, hmKeys]
    · simp only [hmKeys, List.map_cons, List.mem_cons] at h
      rcases h with h | h
      · exact absurd h.symm hak
      · simp only [hmInsert, if_neg hak, hmKeys, List.map_cons]
        exact congrArg (List.cons a) (ih k v h)

theorem hmKeys_insert_of_not_mem : ∀ (m : List (String × Block)) (k : String) (v : Block),
    k ∉ hmKeys m → hmKeys (hmInsert m k v) = hmKeys m ++ [k] := by
  intro m
  induction m with
  | nil => intro k v _; simp [hmInsert, hmKeys]
  | cons kv rest ih =>
    intro k v h
    obtain ⟨a, w⟩ := kv
    simp only [hmKeys, List.map_cons, List.mem_cons] at h
    push_neg at h
    have hak : ¬ a = k := fun hh => h.1 hh.symm
    simp only [hmInsert, if_neg hak, hmKeys, List.map_cons]
    rw [show List.map Prod.fst (hmInsert rest k v) = hmKeys (hmInsert rest k v) from rfl,
      ih k v h.2]
    rfl

theorem hmContains_iff_mem_keys (m : List (String × Block)) (k : String) :
    hmContains m k = true ↔ k ∈ hmKeys m := by
  constructor
  · intro h
    simp only [hmContains, Option.isSome_iff_exists] at h
    rcases h with ⟨b, hb⟩
    exact hmGet_mem_keys m k b hb
  · intro h
    rcases hmGet_isSome_of_mem_keys m k h with ⟨b, hb⟩
    simp [hmContains, hb]

/-! ## C4 — indent detection -/

/-- C4: the claim says the indent scan terminates at the first
non-whitespace character, so characters after it never affect the level; but
on the line `" a  b"` the source's `' '` arm consumes the `'a'` through the
shared iterator and the scan continues, counting the later space pair: the
code yields 1 while the line's leading whitespace (a lone `' '`) yields 0,
as does the specification's description. -/
theorem c4_indent_scan_reads_past_first_nonwhitespace :
    calculateIndentLevel " a  b" = 1 ∧
    (" a  b".toList.takeWhile (fun c => c.isWhitespace)) = [' '] ∧
    calculateIndentLevel (String.mk (" a  b".toList.takeWhile (fun c => c.isWhitespace))) = 0 ∧
    specIndentLevel " a  b".toList = 0 := by
  refine ⟨by decide, by decide, by decide, by decide⟩

/-! ## C10 — cosine similarity guard -/

/-- C10: `cosine_similarity` returns an error exactly when the dimension
counts differ; with equal dimensions it always returns `Ok`, and when either
computed magnitude is zero it returns `Ok 0` without performing the
division. -/
theorem c10_cosine_similarity_guarded (a b : List ℚ) :
    ((∃ e, cosineSimilarity a b = Except.error e) ↔ a.length ≠ b.length) ∧
    (a.length = b.length → ∃ q, cosineSimilarity a b = Except.ok q) ∧
    (a.length = b.length → magnitudeQ a = 0 ∨ magnitudeQ b = 0 →
      cosineSimilarity a b = Except.ok 0) := by
  by_cases h : a.length = b.length
  · have hcond : ¬ (a.length ≠ b.length) := fun hc => hc h
    by_cases hm : magnitudeQ a = 0 ∨ magnitudeQ b = 0
    · have hres : cosineSimilarity a b = Except.ok 0 := by
        simp only [cosineSimilarity, if_neg hcond, if_pos hm]
      refine ⟨?_, fun _ => ⟨0, hres⟩, fun _ _ => hres⟩
      rw [hres]
      constructor
      · rintro ⟨e, he⟩; cases he
      · intro hc; exact absurd h hc
    · have hres : cosineSimilarity a b = Except.ok
          (((a.zip b).foldl (fun s p => s + p.1 * p.2) 0) /
            (magnitudeQ a * magnitudeQ b)) := by
        simp only [cosineSimilarity, if_neg hcond, if_neg hm]
      refine ⟨?_, fun _ => ⟨_, hres⟩, fun _ hm2 => absurd hm2 hm⟩
      rw [hres]
      constructor
      · rintro ⟨e, he⟩; cases he
      · intro hc; exact absurd h hc
  · have hres : cosineSimilarity a b = Except.error (DomainError.invalidOperation
        "Cannot calculate similarity between vectors of different dimensions") := by
      simp only [cosineSimilarity, if_pos h]
    exact ⟨⟨fun _ => h, fun _ => ⟨_, hres⟩⟩,
      fun heq => absurd heq h, fun heq => absurd heq h⟩

/-- The magnitude of the zero vector `[0, 0]` is zero. -/
theorem magnitudeQ_pair_zero : magnitudeQ [0, 0] = 0 := by
  show Rat.sqrt (List.foldl (fun s x => s + x * x) 0 [0, 0]) = 0
  have h0 : List.foldl (fun (s x : ℚ) => s + x * x) 0 [0, 0] = 0 * 0 := by
    simp only [List.foldl]; norm_num
  rw [h0, Rat.sqrt_eq]
  norm_num

/-- C10 witness: concrete instances of the three conjuncts. -/
theorem c10_witness :
    cosineSimilarity [0, 0] [0, 3] = Except.ok 0 ∧
    (∃ e, cosineSimilarity [1] [1, 2] = Except.error e) ∧
    (∃ q, cosineSimilarity [1, 2] [3, 4] = Except.ok q) :=
  ⟨(c10_cosine_similarity_guarded [0, 0] [0, 3]).2.2 (by decide)
      (Or.inl magnitudeQ_pair_zero),
   (c10_cosine_similarity_guarded [1] [1, 2]).1.mpr (by decide),
   (c10_cosine_similarity_guarded [1, 2] [3, 4]).2.1 (by decide)⟩

/-! ## C6 — keyword search scores -/

/-- C6 (amended): every emitted search result's score follows the code's
tables applied to the lowercased matched string: pages and blocks score
1.0 / 0.9 / 0.7 for exact / prefix / contains, while URLs score 1.0 when
exactly equal and 0.8 for every other containing match — including matches
where the URL merely starts with the query. -/
theorem c6_scores_follow_code_table (page : Page) (query : String) (fuel : Nat) :
    (∀ r, searchPage page query = some r →
      r.score = pbScore (strToLower page.title) query) ∧
    (∀ results, searchBlocksFuel fuel page query = some results →
      ∀ r ∈ results, ∀ br, r.item = SearchItem.block br →
        r.score = pbScore (strToLower br.content) query) ∧
    (∀ results, searchUrlsFuel fuel page query = some results →
      ∀ r ∈ results, ∀ ur, r.item = SearchItem.url ur →
        r.score = urlScore (strToLower ur.url) query) := by
  refine ⟨?_, ?_, ?_⟩
  · intro r hr
    unfold searchPage at hr
    by_cases hc : strContains (strToLower page.title) query
    · simp only [if_pos hc, Option.some.injEq] at hr
      subst hr
      rfl
    · simp [if_neg hc] at hr
  · have aux : ∀ (l : List (String × Block)) results,
        searchBlocksGo fuel page query l = some results →
        ∀ r ∈ results, ∀ br, r.item = SearchItem.block br →
          r.score = pbScore (strToLower br.content) query := by
      intro l
      induction l with
      | nil =>
        intro results h r hr br hbr
        simp only [searchBlocksGo, Option.some.injEq] at h
        subst h
        cases hr
      | cons kv rest ih =>
        intro results h r hr br hbr
        simp only [searchBlocksGo] at h
        by_cases hc : strContains (strToLower kv.2.content) query
        · rw [if_pos hc] at h
          cases hpath : getHierarchyPathFuel fuel page kv.2.id with
          | none => rw [hpath] at h; cases h
          | some path =>
            cases hanc : getAncestorsFuel fuel page kv.2.id with
            | none => rw [hpath, hanc] at h; cases h
            | some ancestors =>
              cases hdesc : getDescendantsFuel fuel page kv.2.id with
              | none => rw [hpath, hanc, hdesc] at h; cases h
              | some descendants =>
                rw [hpath, hanc, hdesc] at h
                cases hrec : searchBlocksGo fuel page query rest with
                | none => rw [hrec] at h; cases h
                | some rs =>
                  rw [hrec] at h
                  simp only [Option.some.injEq] at h
                  subst h
                  rcases List.mem_cons.mp hr with hr | hr
                  · subst hr
                    simp only [SearchItem.block.injEq] at hbr
                    subst hbr
                    rfl
                  · exact ih rs hrec r hr br hbr
        · rw [if_neg hc] at h
          exact ih results h r hr br hbr
    exact fun results h => aux page.blocks results h
  · intro results h r hr ur hur
    unfold searchUrlsFuel at h
    cases hctx : getUrlsWithContextFuel fuel page with
    | none => rw [hctx] at h; cases h
    | some ctxs =>
      rw [hctx] at h
      simp only [Option.some.injEq] at h
      subst h
      rcases List.mem_filterMap.mp hr with ⟨ctx, _hmem, hctxr⟩
      by_cases hc : strContains (strToLower ctx.1) query
      · rw [if_pos hc] at hctxr
        cases hfind : page.blocks.find? (fun kv => ctx.1 ∈ kv.2.urls) with
        | none => rw [hfind] at hctxr; cases hctxr
        | some kv =>
          rw [hfind] at hctxr
          simp only [Option.some.injEq] at hctxr
          subst hctxr
          simp only [SearchItem.url.injEq] at hur
          subst hur
          rfl
      · rw [if_neg hc] at hctxr; cases hctxr

/-- C6 witness: on the example page the sole URL result scores 0.8 via the
code's URL table. -/
theorem c6_witness :
    ({ item := SearchItem.url
         { url := "https://example.com", containingBlockId := "u",
           containingBlockContent := "see the site", pageId := "p",
           pageTitle := "Url demo", ancestorPageRefs := [],
           descendantPageRefs := [] },
       score := 8 } : SearchResult).score =
      urlScore (strToLower "https://example.com") "https" := by
  have hres : searchUrlsFuel 2 pageWithUrl "https" = some
      [{ item := SearchItem.url
           { url := "https://example.com", containingBlockId := "u",
             containingBlockContent := "see the site", pageId := "p",
             pageTitle := "Url demo", ancestorPageRefs := [],
             descendantPageRefs := [] },
         score := 8 }] := by decide
  exact (c6_scores_follow_code_table pageWithUrl "https" 2).2.2 _ hres _
    (List.mem_singleton.mpr rfl) _ rfl

/-- C6 counterexample: with query `"https"`, the page's URL
`"https://example.com"` starts with the query without being equal to it, so
the claim's table demands score 0.9; the code emits 0.8. -/
theorem c6_counterexample_url_prefix_scores_8 :
    searchUrlsFuel 2 pageWithUrl "https" = some
      [{ item := SearchItem.url
           { url := "https://example.com", containingBlockId := "u",
             containingBlockContent := "see the site", pageId := "p",
             pageTitle := "Url demo", ancestorPageRefs := [],
             descendantPageRefs := [] },
         score := 8 }] ∧
    strStartsWith (strToLower "https://example.com") "https" = true ∧
    strToLower "https://example.com" ≠ "https" ∧
    (8 : Nat) ≠ 9 := by
  refine ⟨by decide, by decide, by decide, by decide⟩

/-! ## C7 — chunking -/

/-- The chunker loop terminates and produces the described chunk sequence:
from any in-range `start`, the emitted chunk starts form a list beginning at
`start`, stepping by `end − overlap` while `end < n`, and finishing with the
chunk whose `end` is `n`. -/
theorem chunkLoop_spec (words : List String) (maxW ov : Nat) (hov : ov < maxW) :
    ∀ (k start : Nat) (chunks0 : List String),
      start < words.length → words.length - start ≤ k →
      ∃ starts : List Nat,
        starts.head? = some start ∧
        (∀ p ∈ starts.zip starts.tail,
          min (p.1 + maxW) words.length < words.length ∧
          p.2 = min (p.1 + maxW) words.length - ov) ∧
        (∀ l, starts.getLast? = some l → min (l + maxW) words.length = words.length) ∧
        (∀ fuel, words.length - start ≤ fuel →
          chunkLoop fuel words maxW ov start chunks0 =
            some (chunks0 ++ starts.map (fun s =>
              joinWords ((words.drop s).take (min (s + maxW) words.length - s))))) := by
  intro k
  induction k with
  | zero =>
    intro start chunks0 hlt hk
    omega
  | succ k ih =>
    intro start chunks0 hlt hk
    by_cases hend : words.length ≤ min (start + maxW) words.length
    · refine ⟨[start], rfl, by simp, ?_, ?_⟩
      · intro l hl
        simp only [List.getLast?_singleton, Option.some.injEq] at hl
        subst hl
        exact Nat.le_antisymm (Nat.min_le_right _ _) hend
      · intro fuel hfuel
        have hfuel1 : 1 ≤ fuel := by omega
        obtain ⟨f, rfl⟩ := Nat.exists_eq_add_of_le hfuel1
        simp only [Nat.add_comm 1 f, chunkLoop, if_pos hlt, if_pos hend]
        simp
    · push_neg at hend
      have hmin : min (start + maxW) words.length = start + maxW := by
        rcases Nat.le_total (start + maxW) words.length with hle | hle
        · exact Nat.min_eq_left hle
        · have := Nat.min_eq_right hle
          omega
      have hstart2 : min (start + maxW) words.length - ov < words.length := by omega
      have hstep : start < min (start + maxW) words.length - ov := by omega
      obtain ⟨starts, hhead, hpairs, hlast, hrun⟩ :=
        ih (min (start + maxW) words.length - ov) (chunks0 ++
          [joinWords ((words.drop start).take (min (start + maxW) words.length - start))])
          hstart2 (by omega)
      refine ⟨start :: starts, rfl, ?_, ?_, ?_⟩
      · intro p hp
        cases starts with
        | nil => simp at hhead
        | cons s0 rest =>
          simp only [List.head?_cons, Option.some.injEq] at hhead
          subst hhead
          simp only [List.tail_cons, List.zip_cons_cons, List.mem_cons] at hp
          rcases hp with hp | hp
          · subst hp
            exact ⟨hend, rfl⟩
          · exact hpairs p hp
      · intro l hl
        cases starts with
        | nil => simp at hhead
        | cons s0 rest =>
          rw [List.getLast?_cons_cons] at hl
          exact hlast l hl
      · intro fuel hfuel
        have hfuel1 : 1 ≤ fuel := by omega
        obtain ⟨f, rfl⟩ := Nat.exists_eq_add_of_le hfuel1
        have hne : ¬ words.length ≤ min (start + maxW) words.length := by omega
        simp only [Nat.add_comm 1 f, chunkLoop, if_pos hlt, if_neg hne]
        rw [hrun f (by omega)]
        simp

/-- C7: with `overlapWords < maxWords`, `chunk_text` terminates (any fuel of
at least `n + 1` suffices) and returns the single original string when the
word count is at most `maxWords`, and otherwise the sequence of chunks
`words[start .. min(start+maxWords, n)]` joined by single spaces, with
`start` beginning at 0, advancing each step to `end − overlapWords`, and
ending with the chunk whose `end` equals `n`. -/
theorem c7_chunk_text (text : String) (maxWords overlapWords : Nat)
    (h : overlapWords < maxWords) :
    ∃ chunks,
      (∀ fuel, (splitWhitespace text).length + 1 ≤ fuel →
        chunkTextFuel fuel text maxWords overlapWords = some chunks) ∧
      ((splitWhitespace text).length ≤ maxWords → chunks = [text]) ∧
      (maxWords < (splitWhitespace text).length →
        ∃ starts : List Nat,
          starts.head? = some 0 ∧
          chunks = starts.map (fun s =>
            joinWords (((splitWhitespace text).drop s).take
              (min (s + maxWords) (splitWhitespace text).length - s))) ∧
          (∀ p ∈ starts.zip starts.tail,
            min (p.1 + maxWords) (splitWhitespace text).length <
              (splitWhitespace text).length ∧
            p.2 = min (p.1 + maxWords) (splitWhitespace text).length - overlapWords) ∧
          (∀ l, starts.getLast? = some l →
            min (l + maxWords) (splitWhitespace text).length =
              (splitWhitespace text).length)) := by
  by_cases hn : (splitWhitespace text).length ≤ maxWords
  · refine ⟨[text], ?_, fun _ => rfl, fun hgt => absurd hn (by omega)⟩
    intro fuel _
    simp only [chunkTextFuel, if_pos hn]
  · push_neg at hn
    have h0 : 0 < (splitWhitespace text).length := by omega
    obtain ⟨starts, hhead, hpairs, hlast, hrun⟩ :=
      chunkLoop_spec (splitWhitespace text) maxWords overlapWords h
        (splitWhitespace text).length 0 [] h0 (by omega)
    refine ⟨starts.map (fun s =>
      joinWords (((splitWhitespace text).drop s).take
        (min (s + maxWords) (splitWhitespace text).length - s))), ?_, ?_, ?_⟩
    · intro fuel hfuel
      simp only [chunkTextFuel, if_neg (by omega : ¬ (splitWhitespace text).length ≤ maxWords)]
      rw [hrun fuel (by omega)]
      simp
    · intro hle; omega
    · intro _
      exact ⟨starts, hhead, rfl, hpairs, hlast⟩

/-- C7 witness: the doc-tested example `chunk_text("a b c d e f g h i j",
4, 1)` terminates with the three expected chunks, via the theorem. -/
theorem c7_witness :
    (1 < 4) ∧
    ∃ chunks,
      (∀ fuel, (splitWhitespace "a b c d e f g h i j").length + 1 ≤ fuel →
        chunkTextFuel fuel "a b c d e f g h i j" 4 1 = some chunks) := by
  refine ⟨by decide, ?_⟩
  obtain ⟨chunks, hrun, _, _⟩ := c7_chunk_text "a b c d e f g h i j" 4 1 (by decide)
  exact ⟨chunks, hrun⟩

/-! ## C8 — sync of an unchanged directory -/

/-- When every file's path is registered with a recorded `lastModified` at
least the file's mtime, the per-file loop of `sync_once` leaves the state
and effect trace untouched and only counts every file as unchanged. -/
theorem syncFiles_unchanged (files : List SFile) :
    ∀ (st : SyncState) (summary : SyncSummary) (effects : List SyncEffect),
      (∀ f ∈ files, ∃ meta, regLookup st.registry f.path = some meta ∧
        f.mtime ≤ meta.lastModified) →
      files.foldl (fun acc f => syncFile acc.1 acc.2.1 acc.2.2 f) (st, summary, effects) =
        (st, { summary with filesUnchanged := summary.filesUnchanged + files.length },
          effects) := by
  induction files with
  | nil =>
    intro st summary effects _
    simp
  | cons f rest ih =>
    intro st summary effects hreg
    obtain ⟨meta, hmeta, hle⟩ := hreg f (List.mem_cons_self f rest)
    have hns : (match regLookup st.registry f.path with
        | some meta => decide (meta.lastModified < f.mtime)
        | none => true) = false := by
      rw [hmeta]
      simp only [decide_eq_false_iff_not]
      omega
    have hstep : syncFile st summary effects f =
        (st, { summary with filesUnchanged := summary.filesUnchanged + 1 }, effects) := by
      unfold syncFile
      rw [hns]
      simp
    simp only [List.foldl_cons, hstep]
    rw [ih st _ effects (fun g hg => hreg g (List.mem_cons_of_mem f hg))]
    have harith : summary.filesUnchanged + 1 + rest.length =
        summary.filesUnchanged + (rest.length + 1) := by omega
    simp [harith]

/-- C8: a second `sync_once` over a directory of `n` files whose mtimes have
not advanced past the registry's recorded values — and whose registry
contains no stale paths — reports `created = 0`, `updated = 0`,
`deleted = 0`, `unchanged = n` with no errors, performs no parse and no
repository save (empty effect trace), and leaves registry and repository
unchanged. -/
theorem c8_sync_once_unchanged (files : List SFile) (st : SyncState)
    (hreg : ∀ f ∈ files, ∃ meta, regLookup st.registry f.path = some meta ∧
      f.mtime ≤ meta.lastModified)
    (hpaths : ∀ kv ∈ st.registry, (files.map (fun f => f.path)).contains kv.1) :
    syncOnce files st =
      (st, { filesCreated := 0, filesUpdated := 0, filesDeleted := 0,
             filesUnchanged := files.length, errors := [] }, []) := by
  unfold syncOnce
  dsimp only
  rw [syncFiles_unchanged files st _ [] hreg]
  have hfilter : st.registry.filter
      (fun kv => ¬ (files.map (fun f => f.path)).contains kv.1) = [] := by
    rw [List.filter_eq_nil_iff]
    intro kv hkv
    have hmem : kv.1 ∈ List.map (fun f => f.path) files := by
      simpa using hpaths kv hkv
    obtain ⟨x, hx, hxe⟩ := List.mem_map.mp hmem
    simp only [decide_not, Bool.not_eq_true, decide_eq_false_iff_not, Classical.not_not]
    intro hfalse
    rw [hpaths kv hkv] at hfalse
    cases hfalse
  simp only [hfilter]
  simp [handleDeletionsGo]

/-- C8 witness: a two-file directory whose registry matches both mtimes. -/
theorem c8_witness :
    syncOnce
      [{ path := "pages/a.md", content := "- a", mtime := 5 },
       { path := "journals/b.md", content := "- b", mtime := 9 }]
      { registry := [("pages/a.md", { title := "a", lastModified := 5 }),
                     ("journals/b.md", { title := "b", lastModified := 11 })],
        repo := [], counter := 3 } =
      ({ registry := [("pages/a.md", { title := "a", lastModified := 5 }),
                      ("journals/b.md", { title := "b", lastModified := 11 })],
         repo := [], counter := 3 },
       { filesCreated := 0, filesUpdated := 0, filesDeleted := 0,
         filesUnchanged := 2, errors := [] }, []) := by
  refine c8_sync_once_unchanged _ _ ?_ ?_
  · intro f hf
    rcases List.mem_cons.mp hf with hf | hf
    · subst hf
      exact ⟨{ title := "a", lastModified := 5 }, by decide, by decide⟩
    · rcases List.mem_cons.mp hf with hf | hf
      · subst hf
        exact ⟨{ title := "b", lastModified := 11 }, by decide, by decide⟩
      · cases hf
  · intro kv hkv
    rcases List.mem_cons.mp hkv with hkv | hkv
    · subst hkv; decide
    · rcases List.mem_cons.mp hkv with hkv | hkv
      · subst hkv; decide
      · cases hkv

/-! ## C5 — hierarchy assembly parent lookup -/

theorem hmContains_insert_self (m : List (String × Block)) (k : String) (v : Block) :
    hmContains (hmInsert m k v) k = true := by
  simp [hmContains, hmGet_insert_self]

theorem hmContains_insert_of (m : List (String × Block)) (k : String) (v : Block)
    (s : String) (h : hmContains m s = true) : hmContains (hmInsert m k v) s = true := by
  by_cases hs : s = k
  · subst hs; exact hmContains_insert_self m s v
  · simpa [hmContains, hmGet_insert_ne m k s v hs] using h

theorem hmContains_modify (m : List (String × Block)) (k : String) (f : Block → Block)
    (s : String) : hmContains (hmModify m k f) s = hmContains m s := by
  simp only [hmContains, hmGet_modify]
  by_cases hs : s = k
  · subst hs
    simp only [if_pos rfl]
    cases hmGet m s <;> simp
  · simp [hs]

theorem addUrl_keeps_structure (b : Block) (u : String) :
    (b.addUrl u).id = b.id ∧ (b.addUrl u).parentId = b.parentId ∧
    (b.addUrl u).childIds = b.childIds := by
  unfold Block.addUrl
  split <;> simp

theorem addPageReference_keeps_structure (b : Block) (r : PageRef) :
    (b.addPageReference r).id = b.id ∧ (b.addPageReference r).parentId = b.parentId ∧
    (b.addPageReference r).childIds = b.childIds := by
  unfold Block.addPageReference
  split <;> simp

theorem foldl_addUrl_keeps_structure : ∀ (urls : List String) (b : Block),
    ((urls.foldl Block.addUrl b).id = b.id ∧
     (urls.foldl Block.addUrl b).parentId = b.parentId ∧
     (urls.foldl Block.addUrl b).childIds = b.childIds) := by
  intro urls
  induction urls with
  | nil => intro b; exact ⟨rfl, rfl, rfl⟩
  | cons u rest ih =>
    intro b
    obtain ⟨h1, h2, h3⟩ := ih (b.addUrl u)
    obtain ⟨g1, g2, g3⟩ := addUrl_keeps_structure b u
    exact ⟨h1.trans g1, h2.trans g2, h3.trans g3⟩

theorem foldl_addPageReference_keeps_structure : ∀ (refs : List PageRef) (b : Block),
    ((refs.foldl Block.addPageReference b).id = b.id ∧
     (refs.foldl Block.addPageReference b).parentId = b.parentId ∧
     (refs.foldl Block.addPageReference b).childIds = b.childIds) := by
  intro refs
  induction refs with
  | nil => intro b; exact ⟨rfl, rfl, rfl⟩
  | cons r rest ih =>
    intro b
    obtain ⟨h1, h2, h3⟩ := ih (b.addPageReference r)
    obtain ⟨g1, g2, g3⟩ := addPageReference_keeps_structure b r
    exact ⟨h1.trans g1, h2.trans g2, h3.trans g3⟩

theorem addChild_keeps_id_parent (b : Block) (c : String) :
    (b.addChild c).id = b.id ∧ (b.addChild c).parentId = b.parentId := by
  unfold Block.addChild
  split <;> simp

/-- C5: during hierarchy assembly, a line at level `> 0` whose parent stack
(already pruned of levels above the previous line) has no entry at
`level - 1` fails the whole parse with `InvalidMarkdown`; otherwise the line
succeeds and the freshly created block's parent is exactly the most recent
block recorded at `level - 1` (the stack entry), the new block is recorded
at `level`, and the stack stays backed by blocks present in the page. -/
theorem c5_build_hierarchy_parent_lookup (page : Page) (stack : Nat → Option String)
    (counter level : Nat) (content : String) (hlevel : 0 < level)
    (hstack : ∀ l s, stack l = some s → hmContains page.blocks s = true) :
    (stack (level - 1) = none →
      buildHierarchyStep page stack counter level content =
        Except.error (ParseError.invalidMarkdown
          ("No parent block found for indent level " ++ toString level))) ∧
    (∀ pid, stack (level - 1) = some pid →
      ∃ page2 stack2,
        buildHierarchyStep page stack counter level content =
          Except.ok (page2, stack2, counter + 1) ∧
        (∃ b, hmGet page2.blocks ("block-" ++ toString counter) = some b ∧
          b.parentId = some pid) ∧
        stack2 level = some ("block-" ++ toString counter) ∧
        (∀ l s, stack2 l = some s → hmContains page2.blocks s = true)) := by
  have hlevne : ¬ level = 0 := by omega
  constructor
  · intro hnone
    simp only [buildHierarchyStep, if_neg hlevne, hnone]
  · intro pid hsome
    simp only [buildHierarchyStep, if_neg hlevne, hsome]
    set blockId := "block-" ++ toString counter with hbid
    set block0 := Block.newChild blockId content pid level with hb0
    set block1 := (extractUrls content).foldl Block.addUrl block0 with hb1
    set block2 := (extractPageReferences content).foldl Block.addPageReference block1 with hb2
    have hfields : block2.id = blockId ∧ block2.parentId = some pid := by
      obtain ⟨r1, r2, _⟩ := foldl_addPageReference_keeps_structure
        (extractPageReferences content) block1
      obtain ⟨u1, u2, _⟩ := foldl_addUrl_keeps_structure (extractUrls content) block0
      exact ⟨r1.trans u1, (r2.trans u2).trans rfl⟩
    have hcont : hmContains page.blocks pid = true := hstack (level - 1) pid hsome
    have haddEq : page.addBlock block2 = Except.ok { page with blocks := hmModify (hmInsert page.blocks block2.id block2) pid (fun b => b.addChild block2.id) } := by
      simp only [Page.addBlock, hfields.2, if_pos hcont]
    simp only [haddEq]
    refine ⟨_, _, rfl, ?_, ?_, ?_⟩
    · rw [← hfields.1]
      rw [hmGet_modify]
      by_cases hpb : block2.id = pid
      · rw [if_pos hpb]
        have hget : hmGet (hmInsert page.blocks block2.id block2) pid = some block2 := by
          rw [← hpb]; exact hmGet_insert_self _ _ _
        rw [hget]
        obtain ⟨c1, c2⟩ := addChild_keeps_id_parent block2 block2.id
        exact ⟨block2.addChild block2.id, rfl, c2.trans hfields.2⟩
      · rw [if_neg hpb, hmGet_insert_self]
        exact ⟨block2, rfl, hfields.2⟩
    · simp
    · intro l s hl
      by_cases hleq : l = level
      · simp only [if_pos hleq, Option.some.injEq] at hl
        subst hl
        show hmContains (hmModify (hmInsert page.blocks block2.id block2) pid
          (fun b => b.addChild block2.id)) blockId = true
        rw [hmContains_modify, ← hfields.1]
        exact hmContains_insert_self _ _ _
      · simp only [if_neg hleq] at hl
        by_cases hle : l ≤ level
        · rw [if_pos hle] at hl
          have := hstack l s hl
          show hmContains (hmModify (hmInsert page.blocks block2.id block2) pid
            (fun b => b.addChild block2.id)) s = true
          rw [hmContains_modify]
          exact hmContains_insert_of _ _ _ _ this
        · rw [if_neg hle] at hl
          cases hl

/-- C5 witness: on an empty stack a level-1 line fails with
`InvalidMarkdown`; with `r` recorded at level 0 the new block is parented
under `r`. -/
theorem c5_witness :
    (buildHierarchyStep (Page.new "p" "T") (fun _ => none) 0 1 "hello" =
      Except.error (ParseError.invalidMarkdown
        ("No parent block found for indent level " ++ toString 1))) ∧
    (∃ page2 stack2,
      buildHierarchyStep (addBlockOk (Page.new "p" "T") (Block.newRoot "r" "root"))
        (fun l => if l = 0 then some "r" else none) 5 1 "hello" =
        Except.ok (page2, stack2, 5 + 1) ∧
      (∃ b, hmGet page2.blocks ("block-" ++ toString 5) = some b ∧
        b.parentId = some "r")) := by
  constructor
  · exact (c5_build_hierarchy_parent_lookup (Page.new "p" "T") (fun _ => none) 0 1
      "hello" (by decide) (fun l s h => by cases h)).1 rfl
  · obtain ⟨page2, stack2, heq, hblock, _, _⟩ :=
      (c5_build_hierarchy_parent_lookup
        (addBlockOk (Page.new "p" "T") (Block.newRoot "r" "root"))
        (fun l => if l = 0 then some "r" else none) 5 1 "hello" (by decide)
        (fun l s h => by
          by_cases hl : l = 0
          · subst hl
            simp at h
            subst h
            decide
          · simp [hl] at h)).2 "r" (by simp)
    exact ⟨page2, stack2, heq, hblock⟩

/-! ## C2 — persistence round trip -/

/-- C2: the save/load round trip does not preserve sibling order.  On the
page `savedC2` (root `r` with `childIds = ["a", "b"]`), saving under the
admissible `HashMap` iteration order `enumC2` records the correct
`block_children` positions, yet the loaded page has `childIds = ["b", "a"]`:
`load_page` rebuilds child order from the order in which it re-adds blocks
(the all-zero `position` column of `blocks` over the arbitrary iteration
order), and never uses the `child_map` it builds from `block_children`. -/
theorem c2_sibling_order_lost_on_load :
    (savedC2.blocks.map Prod.snd).Perm enumC2 ∧
    (hmGet savedC2.blocks "r").map (fun b => b.childIds) = some ["a", "b"] ∧
    (savePageTransaction Db.empty savedC2 enumC2).blockChildren =
      [("r", "a", 0), ("r", "b", 1)] ∧
    loadedRootChildIds (savePageTransaction Db.empty savedC2 enumC2) "p" "r" =
      some ["b", "a"] := by
  refine ⟨?_, by decide, by decide, by decide⟩
  have hvals : savedC2.blocks.map Prod.snd =
      [((Block.newRoot "r" "root").addChild "a").addChild "b",
       Block.newChild "a" "A" "r" 1, Block.newChild "b" "B" "r" 1] := by decide
  rw [hvals]
  exact List.Perm.cons _ (List.Perm.swap _ _ _)

/-! ## Subtree chains and the removal invariant -/

theorem chain_trans (p : Page) (r s x : String) (hrs : Chain p r s)
    (hsx : Chain p s x) : Chain p r x := by
  induction hsx with
  | refl => exact hrs
  | step y b pid hget hpid _ ih => exact Chain.step y b pid hget hpid ih

theorem chain_mem (p : Page) (r x : String) (h : Chain p r x) :
    x = r ∨ ∃ b, hmGet p.blocks x = some b := by
  cases h with
  | refl => exact Or.inl rfl
  | step x b pid hget _ _ => exact Or.inr ⟨b, hget⟩

theorem chain_fle (f : String → Nat) (p : Page) (hinv : RInv f p) (r x : String)
    (hr : hmContains p.blocks r = true) (h : Chain p r x) : f r ≤ f x := by
  induction h with
  | refl => exact Nat.le_refl _
  | step y b pid hget hpid hchain ih =>
    have hpidmem : hmContains p.blocks pid = true := by
      rcases chain_mem p r pid hchain with hc | ⟨pb, hpb⟩
      · exact hc ▸ hr
      · simp [hmContains, hpb]
    have := hinv.meas y b pid hget hpid hpidmem
    omega

theorem chain_linear (p : Page) (r s x : String) (h1 : Chain p r x)
    (h2 : Chain p s x) : Chain p r s ∨ Chain p s r := by
  induction h1 with
  | refl => exact Or.inr h2
  | step y b pid hget hpid hchain ih =>
    cases h2 with
    | refl => exact Or.inl (Chain.step _ b pid hget hpid hchain)
    | step y2 b2 pid2 hget2 hpid2 hchain2 =>
      rw [hget] at hget2
      injection hget2 with hb2
      subst hb2
      rw [hpid] at hpid2
      injection hpid2 with hpid2
      subst hpid2
      exact ih hchain2

/-- Two pages with identical parent maps have identical chains. -/
theorem chain_congr (p q : Page)
    (hsame : ∀ x, (hmGet q.blocks x).map (fun b => b.parentId) =
      (hmGet p.blocks x).map (fun b => b.parentId)) (r x : String)
    (h : Chain q r x) : Chain p r x := by
  induction h with
  | refl => exact Chain.refl
  | step y b pid hget hpid _ ih =>
    have := hsame y
    rw [hget] at this
    cases hgetp : hmGet p.blocks y with
    | none => rw [hgetp] at this; cases this
    | some bp =>
      rw [hgetp] at this
      simp only [Option.map_some', Option.some.injEq] at this
      exact Chain.step y bp pid hgetp (by rw [← this, hpid]) ih

/-- Chains transfer from a page whose blocks (with their parents) embed into
another page's. -/
theorem chain_transfer (p q : Page)
    (hsub : ∀ x b2, hmGet q.blocks x = some b2 → ∃ b, hmGet p.blocks x = some b ∧
      b2.parentId = b.parentId) (r x : String) (h : Chain q r x) : Chain p r x := by
  induction h with
  | refl => exact Chain.refl
  | step y b pid hget hpid _ ih =>
    obtain ⟨bp, hbp, hpar⟩ := hsub y b hget
    exact Chain.step y bp pid hbp (by rw [← hpar, hpid]) ih

theorem plink_mono (f : String → Nat) (p : Page) (t t2 : Nat) (h : PLink f p t)
    (hle : t ≤ t2) : PLink f p t2 :=
  fun k b pid pb hget hpid ht hpb => h k b pid pb hget hpid (by omega) hpb

theorem removeChild_fields (b : Block) (c : String) :
    (b.removeChild c).id = b.id ∧ (b.removeChild c).parentId = b.parentId ∧
    (b.removeChild c).content = b.content ∧
    (b.removeChild c).indentLevel = b.indentLevel ∧
    (b.removeChild c).urls = b.urls ∧
    (b.removeChild c).pageReferences = b.pageReferences ∧
    (b.removeChild c).childIds = b.childIds.filter (fun x => x ≠ c) := by
  unfold Block.removeChild
  exact ⟨rfl, rfl, rfl, rfl, rfl, rfl, rfl⟩

/-- The parent map is unchanged by `Page.detach`. -/
theorem detach_parent_map (p : Page) (pid0 : Option String) (id : String) :
    ∀ x, (hmGet (p.detach pid0 id).blocks x).map (fun b => b.parentId) =
      (hmGet p.blocks x).map (fun b => b.parentId) := by
  intro x
  cases pid0 with
  | none => rfl
  | some q =>
    show (hmGet (hmModify p.blocks q _) x).map _ = _
    rw [hmGet_modify]
    by_cases hx : x = q
    · subst hx
      cases hmGet p.blocks x <;> simp [Block.removeChild]
    · rw [if_neg hx]

theorem detach_keys (p : Page) (pid0 : Option String) (id : String) :
    hmKeys (p.detach pid0 id).blocks = hmKeys p.blocks := by
  cases pid0 with
  | none => rfl
  | some q => exact hmKeys_modify p.blocks q _

theorem detach_contains (p : Page) (pid0 : Option String) (id x : String) :
    hmContains (p.detach pid0 id).blocks x = hmContains p.blocks x := by
  cases pid0 with
  | none => rfl
  | some q => exact hmContains_modify p.blocks q _ x

/-- `Page.detach` preserves the removal invariant. -/
theorem detach_rinv (f : String → Nat) (p : Page) (pid0 : Option String) (id : String)
    (hinv : RInv f p) : RInv f (p.detach pid0 id) := by
  cases pid0 with
  | none =>
    refine ⟨hinv.keysNodup, hinv.selfId, hinv.childSound, hinv.childNodup, ?_, hinv.meas⟩
    intro r hr
    show ∃ b, hmGet p.blocks r = some b ∧ b.parentId = none
    exact hinv.rootsOk r (List.mem_of_mem_filter hr)
  | some q =>
    have hget : ∀ x, hmGet (p.detach (some q) id).blocks x =
        if x = q then (hmGet p.blocks q).map (fun b => b.removeChild id)
        else hmGet p.blocks x := fun x => hmGet_modify p.blocks q x _
    constructor
    · show (hmKeys (hmModify p.blocks q _)).Nodup
      rw [hmKeys_modify]
      exact hinv.keysNodup
    · intro k b hb
      rw [hget k] at hb
      by_cases hk : k = q
      · rw [if_pos hk] at hb
        cases hq : hmGet p.blocks q with
        | none => rw [hq] at hb; cases hb
        | some bq =>
          rw [hq] at hb
          simp only [Option.map_some', Option.some.injEq] at hb
          subst hb
          rw [(removeChild_fields bq id).1]
          exact hk ▸ hinv.selfId q bq hq
      · rw [if_neg hk] at hb
        exact hinv.selfId k b hb
    · intro k b c hb hc
      rw [hget k] at hb
      have hcore : ∃ b0, hmGet p.blocks k = some b0 ∧ c ∈ b0.childIds := by
        by_cases hk : k = q
        · rw [if_pos hk] at hb
          cases hq : hmGet p.blocks q with
          | none => rw [hq] at hb; cases hb
          | some bq =>
            rw [hq] at hb
            simp only [Option.map_some', Option.some.injEq] at hb
            subst hb
            rw [(removeChild_fields bq id).2.2.2.2.2.2] at hc
            exact ⟨bq, hk ▸ hq, List.mem_of_mem_filter hc⟩
        · rw [if_neg hk] at hb
          exact ⟨b, hb, hc⟩
      obtain ⟨b0, hb0, hc0⟩ := hcore
      obtain ⟨cb, hcb, hcbp⟩ := hinv.childSound k b0 c hb0 hc0
      by_cases hcq : c = q
      · refine ⟨cb.removeChild id, ?_, ?_⟩
        · rw [hget c, if_pos hcq]
          rw [hcq] at hcb
          rw [hcb]
          rfl
        · rw [(removeChild_fields cb id).2.1]
          exact hcbp
      · refine ⟨cb, ?_, hcbp⟩
        rw [hget c, if_neg hcq]
        exact hcb
    · intro k b hb
      rw [hget k] at hb
      by_cases hk : k = q
      · rw [if_pos hk] at hb
        cases hq : hmGet p.blocks q with
        | none => rw [hq] at hb; cases hb
        | some bq =>
          rw [hq] at hb
          simp only [Option.map_some', Option.some.injEq] at hb
          subst hb
          rw [(removeChild_fields bq id).2.2.2.2.2.2]
          exact List.Nodup.filter _ (hinv.childNodup q bq hq)
      · rw [if_neg hk] at hb
        exact hinv.childNodup k b hb
    · intro r hr
      obtain ⟨b, hb, hbp⟩ := hinv.rootsOk r hr
      by_cases hrq : r = q
      · refine ⟨b.removeChild id, ?_, ?_⟩
        · rw [hget r, if_pos hrq]
          rw [hrq] at hb
          rw [hb]
          rfl
        · rw [(removeChild_fields b id).2.1]
          exact hbp
      · refine ⟨b, ?_, hbp⟩
        rw [hget r, if_neg hrq]
        exact hb
    · intro k b pid hb hpid hcont
      have hpm := detach_parent_map p (some q) id k
      rw [hb] at hpm
      cases hk : hmGet p.blocks k with
      | none => rw [hk] at hpm; cases hpm
      | some b0 =>
        rw [hk] at hpm
        simp only [Option.map_some', Option.some.injEq] at hpm
        rw [detach_contains] at hcont
        exact hinv.meas k b0 pid hk (by rw [← hpm, hpid]) hcont

theorem blocksChar_refl_of (p : Page)
    (hsound : ∀ k b c, hmGet p.blocks k = some b → c ∈ b.childIds →
      hmContains p.blocks c = true) : BlocksChar p p := by
  intro x b2 hb
  refine ⟨b2, hb, rfl, rfl, rfl, rfl, rfl, rfl, ?_⟩
  exact (List.filter_eq_self.mpr (fun c hc => hsound x b2 c hb hc)).symm

theorem blocksChar_trans (p q r : Page) (h1 : BlocksChar p q) (h2 : BlocksChar q r) :
    BlocksChar p r := by
  intro x b2 hb2
  obtain ⟨bq, hbq, e1, e2, e3, e4, e5, e6, e7⟩ := h2 x b2 hb2
  obtain ⟨bp, hbp, f1, f2, f3, f4, f5, f6, f7⟩ := h1 x bq hbq
  refine ⟨bp, hbp, e1.trans f1, e2.trans f2, e3.trans f3, e4.trans f4,
    e5.trans f5, e6.trans f6, ?_⟩
  rw [e7, f7, List.filter_filter]
  apply List.filter_congr
  intro c _
  by_cases hc : hmContains r.blocks c = true
  · have : hmContains q.blocks c = true := by
      rcases hmGet_isSome_of_mem_keys r.blocks c
        ((hmContains_iff_mem_keys r.blocks c).mp hc) with ⟨bc, hbc⟩
      obtain ⟨bqc, hbqc, _⟩ := h2 c bc hbc
      simp [hmContains, hbqc]
    simp [hc, this]
  · simp only [Bool.not_eq_true] at hc
    simp [hc]

theorem contains_of_blocksChar (p q : Page) (h : BlocksChar p q) (x : String)
    (hx : hmContains q.blocks x = true) : hmContains p.blocks x = true := by
  rcases hmGet_isSome_of_mem_keys q.blocks x
    ((hmContains_iff_mem_keys q.blocks x).mp hx) with ⟨b, hb⟩
  obtain ⟨b0, hb0, _⟩ := h x b hb
  simp [hmContains, hb0]

/-- The removal invariant transfers along the block/roots characterisation. -/
theorem rinv_of_chars (f : String → Nat) (p q : Page) (hinv : RInv f p)
    (hnd : (hmKeys q.blocks).Nodup) (hbc : BlocksChar p q) (hrc : RootsChar p q) :
    RInv f q := by
  constructor
  · exact hnd
  · intro k b hb
    obtain ⟨b0, hb0, e1, _⟩ := hbc k b hb
    rw [e1]
    exact hinv.selfId k b0 hb0
  · intro k b c hb hc
    obtain ⟨b0, hb0, _, _, _, _, _, _, e7⟩ := hbc k b hb
    rw [e7] at hc
    have hmem := List.mem_of_mem_filter hc
    have hcont := List.of_mem_filter hc
    obtain ⟨cb, hcb, hcbp⟩ := hinv.childSound k b0 c hb0 hmem
    rcases hmGet_isSome_of_mem_keys q.blocks c
      ((hmContains_iff_mem_keys q.blocks c).mp hcont) with ⟨cb2, hcb2⟩
    obtain ⟨cb0, hcb0, _, _, _, e4, _⟩ := hbc c cb2 hcb2
    rw [hcb] at hcb0
    injection hcb0 with hcb0
    exact ⟨cb2, hcb2, by rw [e4, ← hcb0, hcbp]⟩
  · intro k b hb
    obtain ⟨b0, hb0, _, _, _, _, _, _, e7⟩ := hbc k b hb
    rw [e7]
    exact List.Nodup.filter _ (hinv.childNodup k b0 hb0)
  · intro r hr
    rw [hrc] at hr
    have hmem := List.mem_of_mem_filter hr
    have hcont := List.of_mem_filter hr
    obtain ⟨b, hb, hbp⟩ := hinv.rootsOk r hmem
    rcases hmGet_isSome_of_mem_keys q.blocks r
      ((hmContains_iff_mem_keys q.blocks r).mp hcont) with ⟨b2, hb2⟩
    obtain ⟨b0, hb0, _, _, _, e4, _⟩ := hbc r b2 hb2
    rw [hb] at hb0
    injection hb0 with hb0
    exact ⟨b2, hb2, by rw [e4, ← hb0, hbp]⟩
  · intro k b pid hb hpid hcont
    obtain ⟨b0, hb0, _, _, _, e4, _⟩ := hbc k b hb
    refine hinv.meas k b0 pid hb0 (by rw [← e4, hpid]) ?_
    exact contains_of_blocksChar p q hbc pid hcont

theorem contains_remove (m : List (String × Block)) (id x : String)
    (hnd : (hmKeys m).Nodup) :
    hmContains (hmRemove m id) x = if x = id then false else hmContains m x := by
  by_cases hx : x = id
  · subst hx
    simp [hmContains, hmGet_remove_self m x hnd]
  · simp [hx, hmContains, hmGet_remove_ne m id x hx]

theorem rootsChar_refl (p : Page)
    (hroots : ∀ r ∈ p.rootBlockIds, hmContains p.blocks r = true) : RootsChar p p :=
  (List.filter_eq_self.mpr (fun r hr => hroots r hr)).symm

theorem hmContains_of_get (m : List (String × Block)) (k : String) (b : Block)
    (h : hmGet m k = some b) : hmContains m k = true := by
  simp [hmContains, h]

theorem hmGet_of_contains (m : List (String × Block)) (k : String)
    (h : hmContains m k = true) : ∃ b, hmGet m k = some b :=
  hmGet_isSome_of_mem_keys m k ((hmContains_iff_mem_keys m k).mp h)

theorem rootsChar_trans (p q r : Page) (h1 : RootsChar p q) (h2 : RootsChar q r)
    (hsub : ∀ x, hmContains r.blocks x = true → hmContains q.blocks x = true) :
    RootsChar p r := by
  show r.rootBlockIds = _
  rw [h2, h1, List.filter_filter]
  apply List.filter_congr
  intro x _
  by_cases hx : hmContains r.blocks x = true
  · simp [hx, hsub x hx]
  · simp only [Bool.not_eq_true] at hx
    simp [hx]

/-- Rebuilding a chain among survivors: when a page `pA` keeps exactly the
blocks of `p` outside the subtree of `c` (with parents unchanged), a chain of
`p` that starts and ends outside that subtree also holds in `pA`. -/
theorem chain_rebuild (p pA : Page) (c : String)
    (hkeys : ∀ y, hmContains pA.blocks y = true ↔
      (hmContains p.blocks y = true ∧ ¬ Chain p c y))
    (hbc : BlocksChar p pA) (c2 : String)
    (hc2mem : hmContains p.blocks c2 = true) (x : String) (h : Chain p c2 x) :
    hmContains p.blocks x = true → ¬ Chain p c x → Chain pA c2 x := by
  induction h with
  | refl => intro _ _; exact Chain.refl
  | step y b pid hget hpid hchain ih =>
    intro hy hyc
    have hpidc : ¬ Chain p c pid := fun hcp => hyc (Chain.step y b pid hget hpid hcp)
    have hpidmem : hmContains p.blocks pid = true := by
      rcases chain_mem p c2 pid hchain with he | ⟨pb, hpb⟩
      · exact he ▸ hc2mem
      · exact hmContains_of_get p.blocks pid pb hpb
    have hymem : hmContains pA.blocks y = true := (hkeys y).mpr ⟨hy, hyc⟩
    rcases hmGet_of_contains pA.blocks y hymem with ⟨bA, hbA⟩
    obtain ⟨b0, hb0, _, _, _, e4, _⟩ := hbc y bA hbA
    rw [hget] at hb0
    injection hb0 with hb0
    exact Chain.step y bA pid hbA (by rw [e4, ← hb0, hpid]) (ih hpidmem hpidc)

/-- The empty child list leaves the page untouched and satisfies the loop
characterisation. -/
theorem removeChildren_nil (f : String → Nat) (fuel : Nat) (p : Page)
    (hinv : RInv f p) :
    ∃ p2, removeChildrenFuel fuel p [] = some (Except.ok (), p2) ∧ RInv f p2 ∧
      (∀ x, hmContains p2.blocks x = true ↔
        (hmContains p.blocks x = true ∧ ∀ c ∈ ([] : List String), ¬ Chain p c x)) ∧
      BlocksChar p p2 ∧ RootsChar p p2 ∧ p2.id = p.id ∧ p2.title = p.title := by
  refine ⟨p, ?_, hinv, ?_, ?_, ?_, rfl, rfl⟩
  · simp [removeChildrenFuel]
  · intro x
    constructor
    · intro h
      exact ⟨h, fun c hc => absurd hc (List.not_mem_nil c)⟩
    · exact fun h => h.1
  · refine blocksChar_refl_of p (fun k b c hb hc => ?_)
    obtain ⟨cb, hcb, _⟩ := hinv.childSound k b c hb hc
    exact hmContains_of_get p.blocks c cb hcb
  · refine rootsChar_refl p (fun r hr => ?_)
    obtain ⟨b, hb, _⟩ := hinv.rootsOk r hr
    exact hmContains_of_get p.blocks r b hb

/-- With zero fuel the block hypothesis is impossible: the key bound would
put `f id` at most `F0`. -/
theorem removeB_zero (f : String → Nat) (F0 : Nat) : RemoveB f F0 0 := by
  intro p id b0 _ _ hkb hget hfuel
  exact absurd (hkb id (hmGet_mem_keys p.blocks id b0 hget)) (by omega)

theorem chain_cases (p : Page) (r x : String) (h : Chain p r x) :
    x = r ∨ ∃ b pid, hmGet p.blocks x = some b ∧ b.parentId = some pid ∧
      Chain p r pid := by
  cases h with
  | refl => exact Or.inl rfl
  | step x b pid hget hpid hchain => exact Or.inr ⟨b, pid, hget, hpid, hchain⟩

/-- The child-removal loop characterisation follows from the single-removal
one at the same fuel, by induction on the pending child list. -/
theorem removeStepC (f : String → Nat) (F0 fuel : Nat) (hB : RemoveB f F0 fuel) :
    RemoveC f F0 fuel := by
  intro p t cs
  induction cs generalizing p with
  | nil =>
    intro hinv _ _ _ _ _
    exact removeChildren_nil f fuel p hinv
  | cons c cs2 ih =>
    intro hinv hpl hkb hfuel hnd hcs
    obtain ⟨bc, pc, hbc, hbcp, hpcle, htlt⟩ := hcs c (List.mem_cons_self c cs2)
    obtain ⟨pA, hrunA, hinvA, hkeysA, hbcA, hrcA, hidA, htitleA⟩ :=
      hB p c bc hinv (plink_mono f p t (f c) hpl (Nat.le_of_lt htlt)) hkb hbc (by omega)
    have hdisj : ∀ c2, c2 ∈ cs2 → ¬ Chain p c c2 := by
      intro c2 hc2 hch
      obtain ⟨bc2, pc2, hbc2, hbc2p, hpc2le, htlt2⟩ :=
        hcs c2 (List.mem_cons_of_mem c hc2)
      have hne : c2 ≠ c := by
        intro he
        exact (List.nodup_cons.mp hnd).1 (he ▸ hc2)
      rcases chain_cases p c c2 hch with he | ⟨b, pid, hgetc2, hpidc2, hchain⟩
      · exact hne he
      · rw [hbc2] at hgetc2
        injection hgetc2 with hgetc2
        subst hgetc2
        rw [hbc2p] at hpidc2
        injection hpidc2 with hpidc2
        subst hpidc2
        have hcmem : hmContains p.blocks c = true := hmContains_of_get p.blocks c bc hbc
        have := chain_fle f p hinv c pc2 hcmem hchain
        omega
    have hsubA : ∀ x, hmContains pA.blocks x = true → hmContains p.blocks x = true :=
      fun x hx => contains_of_blocksChar p pA hbcA x hx
    have hplA : PLink f pA t := by
      intro k b pid pb hgetk hpid ht hpb
      obtain ⟨b0, hb0, _, _, _, e4, _⟩ := hbcA k b hgetk
      obtain ⟨pb0, hpb0, _, _, _, _, _, _, e7⟩ := hbcA pid pb hpb
      rw [e7]
      refine List.mem_filter.mpr ⟨?_, ?_⟩
      · exact hpl k b0 pid pb0 hb0 (by rw [← e4, hpid]) ht hpb0
      · exact hmContains_of_get pA.blocks k b hgetk
    have hkbA : KeysBound f F0 pA := by
      intro k hk
      exact hkb k ((hmContains_iff_mem_keys p.blocks k).mp
        (hsubA k ((hmContains_iff_mem_keys pA.blocks k).mpr hk)))
    have hcs2A : ∀ c2 ∈ cs2, ∃ bc2 pc2, hmGet pA.blocks c2 = some bc2 ∧
        bc2.parentId = some pc2 ∧ f pc2 ≤ t ∧ t < f c2 := by
      intro c2 hc2
      obtain ⟨bc2, pc2, hbc2, hbc2p, hpc2le, htlt2⟩ :=
        hcs c2 (List.mem_cons_of_mem c hc2)
      have hc2A : hmContains pA.blocks c2 = true :=
        (hkeysA c2).mpr ⟨hmContains_of_get p.blocks c2 bc2 hbc2, hdisj c2 hc2⟩
      rcases hmGet_of_contains pA.blocks c2 hc2A with ⟨bA, hbA⟩
      obtain ⟨b0, hb0, _, _, _, e4, _⟩ := hbcA c2 bA hbA
      rw [hbc2] at hb0
      injection hb0 with hb0
      exact ⟨bA, pc2, hbA, by rw [e4, ← hb0]; exact hbc2p, hpc2le, htlt2⟩
    obtain ⟨pB, hrunB, hinvB, hkeysB, hbcB, hrcB, hidB, htitleB⟩ :=
      ih pA hinvA hplA hkbA hfuel (List.nodup_cons.mp hnd).2 hcs2A
    refine ⟨pB, ?_, hinvB, ?_, blocksChar_trans p pA pB hbcA hbcB,
      rootsChar_trans p pA pB hrcA hrcB
        (fun x hx => contains_of_blocksChar pA pB hbcB x hx),
      hidB.trans hidA, htitleB.trans htitleA⟩
    · show removeChildrenFuel fuel p (c :: cs2) = some (Except.ok (), pB)
      simp only [removeChildrenFuel, hrunA]
      exact hrunB
    · intro x
      constructor
      · intro hx
        have h1 := (hkeysB x).mp hx
        have h2 := (hkeysA x).mp h1.1
        refine ⟨h2.1, ?_⟩
        intro c2 hc2
        rcases List.mem_cons.mp hc2 with he | hc2
        · rw [he]
          exact h2.2
        · intro hch
          have hc2mem : hmContains p.blocks c2 = true := by
            obtain ⟨bc2, pc2, hbc2, _, _, _⟩ := hcs c2 (List.mem_cons_of_mem c hc2)
            exact hmContains_of_get p.blocks c2 bc2 hbc2
          exact h1.2 c2 hc2
            (chain_rebuild p pA c hkeysA hbcA c2 hc2mem x hch h2.1 h2.2)
      · intro hx
        have hxA : hmContains pA.blocks x = true :=
          (hkeysA x).mpr ⟨hx.1, hx.2 c (List.mem_cons_self c cs2)⟩
        refine (hkeysB x).mpr ⟨hxA, ?_⟩
        intro c2 hc2 hch
        refine hx.2 c2 (List.mem_cons_of_mem c hc2) ?_
        refine chain_transfer p pA ?_ c2 x hch
        intro z b2 hb2
        obtain ⟨b, hb, _, _, _, e4, _⟩ := hbcA z b2 hb2
        exact ⟨b, hb, e4⟩

theorem detach_id (p : Page) (pid0 : Option String) (id : String) :
    (p.detach pid0 id).id = p.id := by
  cases pid0 <;> rfl

theorem detach_title (p : Page) (pid0 : Option String) (id : String) :
    (p.detach pid0 id).title = p.title := by
  cases pid0 <;> rfl

/-- `Page.detach` preserves parent-link completeness at threshold `f id`:
only `id`'s own link is dropped, and `id` sits at the threshold. -/
theorem detach_plink (f : String → Nat) (p : Page) (id : String) (b0 : Block)
    (hpl : PLink f p (f id)) : PLink f (p.detach b0.parentId id) (f id) := by
  intro k b pid pb hgetk hpid ht hpb
  cases hp0 : b0.parentId with
  | none =>
    rw [hp0] at hgetk hpb
    exact hpl k b pid pb hgetk hpid ht hpb
  | some q =>
    rw [hp0] at hgetk hpb
    have hgetk2 : (if k = q then (hmGet p.blocks q).map (fun x => x.removeChild id)
        else hmGet p.blocks k) = some b := by
      rw [← hmGet_modify p.blocks q k (fun x => x.removeChild id)]
      exact hgetk
    have hpb2 : (if pid = q then (hmGet p.blocks q).map (fun x => x.removeChild id)
        else hmGet p.blocks pid) = some pb := by
      rw [← hmGet_modify p.blocks q pid (fun x => x.removeChild id)]
      exact hpb
    have hkside : ∃ bk, hmGet p.blocks k = some bk ∧ b.parentId = bk.parentId := by
      by_cases hkq : k = q
      · rw [if_pos hkq] at hgetk2
        cases hq : hmGet p.blocks q with
        | none => rw [hq] at hgetk2; cases hgetk2
        | some bq =>
          rw [hq] at hgetk2
          simp only [Option.map_some', Option.some.injEq] at hgetk2
          subst hgetk2
          exact ⟨bq, by rw [hkq]; exact hq, (removeChild_fields bq id).2.1⟩
      · rw [if_neg hkq] at hgetk2
        exact ⟨b, hgetk2, rfl⟩
    obtain ⟨bk, hkbk, hbpar⟩ := hkside
    have hkne : k ≠ id := by
      intro he
      rw [he] at ht
      omega
    by_cases hpq : pid = q
    · rw [if_pos hpq] at hpb2
      cases hq : hmGet p.blocks q with
      | none => rw [hq] at hpb2; cases hpb2
      | some bq =>
        rw [hq] at hpb2
        simp only [Option.map_some', Option.some.injEq] at hpb2
        subst hpb2
        have hmem : k ∈ bq.childIds :=
          hpl k bk pid bq hkbk (by rw [← hbpar]; exact hpid) ht
            (by rw [hpq]; exact hq)
        rw [(removeChild_fields bq id).2.2.2.2.2.2]
        exact List.mem_filter.mpr ⟨hmem, by simp [hkne]⟩
    · rw [if_neg hpq] at hpb2
      exact hpl k bk pid pb hkbk (by rw [← hbpar]; exact hpid) ht hpb2

/-- The single-removal characterisation at `fuel + 1` follows from the loop
characterisation at `fuel`. -/
theorem removeStepB (f : String → Nat) (F0 fuel : Nat) (hC : RemoveC f F0 fuel) :
    RemoveB f F0 (fuel + 1) := by
  intro p id b0 hinv hpl hkb hget hfuel
  have hidmem : hmContains p.blocks id = true := hmContains_of_get p.blocks id b0 hget
  have hinv1 : RInv f (p.detach b0.parentId id) := detach_rinv f p b0.parentId id hinv
  have hpl1 : PLink f (p.detach b0.parentId id) (f id) := detach_plink f p id b0 hpl
  have hkb1 : KeysBound f F0 (p.detach b0.parentId id) := by
    intro k hk
    rw [detach_keys] at hk
    exact hkb k hk
  have hcs1 : ∀ c ∈ b0.childIds, ∃ bc pc,
      hmGet (p.detach b0.parentId id).blocks c = some bc ∧ bc.parentId = some pc ∧
      f pc ≤ f id ∧ f id < f c := by
    intro c hc
    obtain ⟨cb, hcb, hcbp⟩ := hinv.childSound id b0 c hget hc
    have hfc : f id < f c := hinv.meas c cb id hcb hcbp hidmem
    cases hp0 : b0.parentId with
    | none => exact ⟨cb, id, hcb, hcbp, Nat.le_refl _, hfc⟩
    | some q =>
      by_cases hcq : c = q
      · refine ⟨cb.removeChild id, id, ?_, ?_, Nat.le_refl _, hfc⟩
        · show hmGet (hmModify p.blocks q (fun b => b.removeChild id)) c =
            some (cb.removeChild id)
          rw [hmGet_modify p.blocks q c (fun b => b.removeChild id), if_pos hcq,
            ← hcq, hcb]
          rfl
        · rw [(removeChild_fields cb id).2.1]
          exact hcbp
      · refine ⟨cb, id, ?_, hcbp, Nat.le_refl _, hfc⟩
        show hmGet (hmModify p.blocks q (fun b => b.removeChild id)) c = some cb
        rw [hmGet_modify p.blocks q c (fun b => b.removeChild id), if_neg hcq]
        exact hcb
  obtain ⟨p2, hrun2, hinv2, hkeys2, hbc2, hrc2, hid2, htitle2⟩ :=
    hC (p.detach b0.parentId id) (f id) b0.childIds hinv1 hpl1 hkb1 (by omega)
      (hinv.childNodup id b0 hget) hcs1
  have hcr : ∀ c, hmContains (hmRemove p2.blocks id) c =
      if c = id then false else hmContains p2.blocks c :=
    fun c => contains_remove p2.blocks id c hinv2.keysNodup
  have hchainTo : ∀ r x, Chain (p.detach b0.parentId id) r x → Chain p r x :=
    fun r x h => chain_congr p _ (detach_parent_map p b0.parentId id) r x h
  have hchainFrom : ∀ r x, Chain p r x → Chain (p.detach b0.parentId id) r x :=
    fun r x h => chain_congr _ p
      (fun y => (detach_parent_map p b0.parentId id y).symm) r x h
  have hdecomp : ∀ x, Chain p id x → x = id ∨ ∃ c ∈ b0.childIds, Chain p c x := by
    intro x hx
    induction hx with
    | refl => exact Or.inl rfl
    | step y b pid hgety hpidy hchain ih =>
      rcases ih with he | ⟨c, hc, hcc⟩
      · subst he
        refine Or.inr ⟨y, ?_, Chain.refl⟩
        have hfy : f pid < f y := hinv.meas y b pid hgety hpidy hidmem
        exact hpl y b pid b0 hgety hpidy hfy hget
      · exact Or.inr ⟨c, hc, Chain.step y b pid hgety hpidy hcc⟩
  have hcomp : ∀ c ∈ b0.childIds, ∀ x, Chain p c x → Chain p id x := by
    intro c hc x hcx
    obtain ⟨cb, hcb, hcbp⟩ := hinv.childSound id b0 c hget hc
    exact chain_trans p id c x (Chain.step c cb id hcb hcbp Chain.refl) hcx
  have hkeysFin : ∀ x, hmContains (hmRemove p2.blocks id) x = true ↔
      (hmContains p.blocks x = true ∧ ¬ Chain p id x) := by
    intro x
    rw [hcr x]
    by_cases hx : x = id
    · subst hx
      rw [if_pos rfl]
      constructor
      · intro h
        exact absurd h (by simp)
      · intro h
        exact absurd Chain.refl h.2
    · rw [if_neg hx]
      have h2 := hkeys2 x
      constructor
      · intro hx2
        obtain ⟨ha, hb⟩ := h2.mp hx2
        rw [detach_contains] at ha
        refine ⟨ha, ?_⟩
        intro hch
        rcases hdecomp x hch with he | ⟨c, hc, hcc⟩
        · exact hx he
        · exact hb c hc (hchainFrom c x hcc)
      · intro hx2
        refine h2.mpr ⟨?_, ?_⟩
        · rw [detach_contains]
          exact hx2.1
        · intro c hc hch1
          exact hx2.2 (hcomp c hc x (hchainTo c x hch1))
  have hbcFin : ∀ x b2, hmGet (hmRemove p2.blocks id) x = some b2 →
      ∃ b, hmGet p.blocks x = some b ∧ b2.id = b.id ∧ b2.content = b.content ∧
        b2.indentLevel = b.indentLevel ∧ b2.parentId = b.parentId ∧
        b2.urls = b.urls ∧ b2.pageReferences = b.pageReferences ∧
        b2.childIds = b.childIds.filter
          (fun c => hmContains (hmRemove p2.blocks id) c) := by
    intro x b2 hb2
    have hxid : x ≠ id := by
      intro he
      rw [he, hmGet_remove_self p2.blocks id hinv2.keysNodup] at hb2
      cases hb2
    rw [hmGet_remove_ne p2.blocks id x hxid] at hb2
    obtain ⟨b1, hb1, e1, e2, e3, e4, e5, e6, e7⟩ := hbc2 x b2 hb2
    cases hp0 : b0.parentId with
    | none =>
      rw [hp0] at hb1
      have hb1p : hmGet p.blocks x = some b1 := hb1
      have hnotin : id ∉ b1.childIds := by
        intro hmem
        obtain ⟨idb, hidb, hidbp⟩ := hinv.childSound x b1 id hb1p hmem
        rw [hget] at hidb
        injection hidb with hidb
        subst hidb
        rw [hp0] at hidbp
        cases hidbp
      refine ⟨b1, hb1p, e1, e2, e3, e4, e5, e6, ?_⟩
      rw [e7]
      apply List.filter_congr
      intro c hcmem
      have hcid : c ≠ id := by
        intro he
        exact hnotin (he ▸ hcmem)
      simp [hcr, hcid]
    | some q =>
      rw [hp0] at hb1
      have hb1q : (if x = q then (hmGet p.blocks q).map (fun z => z.removeChild id)
          else hmGet p.blocks x) = some b1 := by
        rw [← hmGet_modify p.blocks q x (fun z => z.removeChild id)]
        exact hb1
      by_cases hxq : x = q
      · rw [if_pos hxq] at hb1q
        cases hq : hmGet p.blocks q with
        | none => rw [hq] at hb1q; cases hb1q
        | some bq =>
          rw [hq] at hb1q
          simp only [Option.map_some', Option.some.injEq] at hb1q
          subst hb1q
          refine ⟨bq, by rw [hxq]; exact hq,
            e1.trans (removeChild_fields bq id).1,
            e2.trans (removeChild_fields bq id).2.2.1,
            e3.trans (removeChild_fields bq id).2.2.2.1,
            e4.trans (removeChild_fields bq id).2.1,
            e5.trans (removeChild_fields bq id).2.2.2.2.1,
            e6.trans (removeChild_fields bq id).2.2.2.2.2.1, ?_⟩
          rw [e7, (removeChild_fields bq id).2.2.2.2.2.2, List.filter_filter]
          apply List.filter_congr
          intro c _
          by_cases hcid : c = id
          · subst hcid
            simp [hcr]
          · simp [hcr, hcid]
      · rw [if_neg hxq] at hb1q
        have hnotin : id ∉ b1.childIds := by
          intro hmem
          obtain ⟨idb, hidb, hidbp⟩ := hinv.childSound x b1 id hb1q hmem
          rw [hget] at hidb
          injection hidb with hidb
          subst hidb
          rw [hp0] at hidbp
          injection hidbp with hidbp
          exact hxq hidbp.symm
        refine ⟨b1, hb1q, e1, e2, e3, e4, e5, e6, ?_⟩
        rw [e7]
        apply List.filter_congr
        intro c hcmem
        have hcid : c ≠ id := by
          intro he
          exact hnotin (he ▸ hcmem)
        simp [hcr, hcid]
  have hrcFin : p2.rootBlockIds = p.rootBlockIds.filter
      (fun r => hmContains (hmRemove p2.blocks id) r) := by
    have hrc2' := hrc2
    cases hp0 : b0.parentId with
    | none =>
      rw [hp0] at hrc2'
      have : p2.rootBlockIds = (p.rootBlockIds.filter (fun bid => bid ≠ id)).filter
          (fun r => hmContains p2.blocks r) := hrc2'
      rw [this, List.filter_filter]
      apply List.filter_congr
      intro r _
      by_cases hrid : r = id
      · subst hrid
        simp [hcr]
      · simp [hcr, hrid]
    | some q =>
      rw [hp0] at hrc2'
      have : p2.rootBlockIds = p.rootBlockIds.filter
          (fun r => hmContains p2.blocks r) := hrc2'
      rw [this]
      apply List.filter_congr
      intro r hrmem
      have hrid : r ≠ id := by
        intro he
        obtain ⟨rb, hrb, hrbp⟩ := hinv.rootsOk r hrmem
        rw [he, hget] at hrb
        injection hrb with hrb
        subst hrb
        rw [hp0] at hrbp
        cases hrbp
      simp [hcr, hrid]
  refine ⟨{ p2 with blocks := hmRemove p2.blocks id }, ?_, ?_, hkeysFin, hbcFin,
    hrcFin, hid2.trans (detach_id p b0.parentId id),
    htitle2.trans (detach_title p b0.parentId id)⟩
  · simp only [removeBlockFuel, hget, hrun2]
  · refine rinv_of_chars f p _ hinv ?_ hbcFin hrcFin
    exact hmKeys_remove_nodup p2.blocks id hinv2.keysNodup

/-- The full removal characterisation, by induction on the fuel. -/
theorem removeMain (f : String → Nat) (F0 : Nat) :
    ∀ fuel, RemoveB f F0 fuel ∧ RemoveC f F0 fuel := by
  intro fuel
  induction fuel with
  | zero => exact ⟨removeB_zero f F0, removeStepC f F0 0 (removeB_zero f F0)⟩
  | succ n ih =>
    have hB := removeStepB f F0 n ih.2
    exact ⟨hB, removeStepC f F0 (n + 1) hB⟩

/-- A finished `remove_block` run keeps its result when given one more unit
of fuel. -/
theorem removeMonoAux : ∀ fuel : Nat,
    (∀ p id r, removeBlockFuel fuel p id = some r →
      removeBlockFuel (fuel + 1) p id = some r) ∧
    (∀ p cs r, removeChildrenFuel fuel p cs = some r →
      removeChildrenFuel (fuel + 1) p cs = some r) := by
  intro fuel
  induction fuel with
  | zero =>
    constructor
    · intro p id r h
      simp [removeBlockFuel] at h
    · intro p cs r h
      cases cs with
      | nil =>
        simp only [removeChildrenFuel] at h ⊢
        exact h
      | cons c cs2 =>
        simp [removeChildrenFuel, removeBlockFuel] at h
  | succ n ih =>
    have hB : ∀ p id r, removeBlockFuel (n + 1) p id = some r →
        removeBlockFuel (n + 1 + 1) p id = some r := by
      intro p id r h
      cases hget : hmGet p.blocks id with
      | none =>
        simp only [removeBlockFuel, hget] at h ⊢
        exact h
      | some b =>
        simp only [removeBlockFuel, hget] at h ⊢
        cases hrc : removeChildrenFuel n (p.detach b.parentId id) b.childIds with
        | none => simp [hrc] at h
        | some rc =>
          obtain ⟨st, p2⟩ := rc
          rw [hrc] at h
          rw [ih.2 _ _ _ hrc]
          cases st with
          | error e => exact h
          | ok u => exact h
    refine ⟨hB, ?_⟩
    intro p cs
    induction cs generalizing p with
    | nil =>
      intro r h
      simp only [removeChildrenFuel] at h ⊢
      exact h
    | cons c cs2 ihc =>
      intro r h
      cases hrb : removeBlockFuel (n + 1) p c with
      | none => simp [removeChildrenFuel, hrb] at h
      | some rb =>
        obtain ⟨st, p2⟩ := rb
        simp only [removeChildrenFuel, hrb] at h ⊢
        rw [hB _ _ _ hrb]
        cases st with
        | error e => exact h
        | ok u => exact ihc p2 r h

/-- Fuel monotonicity for finished `remove_block` runs. -/
theorem removeBlock_mono (fuel g : Nat) (hle : fuel ≤ g) (p : Page) (id : String)
    (r : Except DomainError Unit × Page) (h : removeBlockFuel fuel p id = some r) :
    removeBlockFuel g p id = some r := by
  induction hle with
  | refl => exact h
  | step h2 ih => exact (removeMonoAux _).1 p id r ih

theorem hmGet_of_mem : ∀ (m : List (String × Block)) (k : String) (v : Block),
    (hmKeys m).Nodup → (k, v) ∈ m → hmGet m k = some v := by
  intro m
  induction m with
  | nil => intro k v _ hmem; cases hmem
  | cons kv rest ih =>
    intro k v hnd hmem
    obtain ⟨a, w⟩ := kv
    rcases List.mem_cons.mp hmem with he | hm
    · injection he with h1 h2
      subst h1
      subst h2
      simp [hmGet]
    · have hk : k ∈ hmKeys rest := by
        simp only [hmKeys, List.mem_map]
        exact ⟨(k, v), hm, rfl⟩
      have hak : a ≠ k := by
        intro he
        have := (List.nodup_cons.mp hnd).1
        exact this (he ▸ hk)
      rw [show hmGet ((a, w) :: rest) k = hmGet rest k by simp [hmGet, hak]]
      exact ih k v (List.nodup_cons.mp hnd).2 hm

/-- The removal invariant holds for a fully well-formed page, for any
witnessing measure. -/
theorem rinv_of_wf (p : Page) (hwf : PageWF p) (f : String → Nat)
    (hf : ∀ k b pid, hmGet p.blocks k = some b → b.parentId = some pid →
      hmContains p.blocks pid → f pid < f k) : RInv f p := by
  refine ⟨hwf.keysNodup, hwf.selfId, hwf.childSound, ?_, hwf.rootsSound, hf⟩
  intro k b hb
  rw [List.nodup_iff_count_le_one]
  intro c
  by_cases hc : c ∈ b.childIds
  · obtain ⟨cb, hcb, hcbp⟩ := hwf.childSound k b c hb hc
    obtain ⟨pb, hpb, hcount⟩ := hwf.parentChild c cb k hcb hcbp
    rw [hb] at hpb
    injection hpb with hpb
    subst hpb
    exact Nat.le_of_eq hcount
  · rw [List.count_eq_zero_of_not_mem hc]
    exact Nat.zero_le 1

/-- Parent links are complete at every threshold on a fully well-formed
page. -/
theorem plink_of_wf (p : Page) (hwf : PageWF p) (f : String → Nat) (t : Nat) :
    PLink f p t := by
  intro k b pid pb hget hpid _ hpb
  obtain ⟨pb2, hpb2, hcount⟩ := hwf.parentChild k b pid hget hpid
  rw [hpb] at hpb2
  injection hpb2 with hpb2
  subst hpb2
  exact List.count_pos_iff.mp (by omega)

theorem foldr_max_bound (f : String → Nat) :
    ∀ l : List String, ∀ k ∈ l, f k ≤ l.foldr (fun x a => max (f x) a) 0 := by
  intro l
  induction l with
  | nil => intro k hk; cases hk
  | cons a l ih =>
    intro k hk
    rcases List.mem_cons.mp hk with he | hm
    · subst he
      exact Nat.le_max_left _ _
    · exact Nat.le_trans (ih k hm) (Nat.le_max_right _ _)

/-- Full well-formedness transfers to the surviving page of a removal run,
given the survivor characterisation. -/
theorem pageWF_of_chars (f : String → Nat) (p p2 : Page) (id : String)
    (hwf : PageWF p) (hinv2 : RInv f p2)
    (hkeys : ∀ x, hmContains p2.blocks x = true ↔
      (hmContains p.blocks x = true ∧ ¬ Chain p id x))
    (hbc : BlocksChar p p2) (hrc : RootsChar p p2) : PageWF p2 := by
  refine ⟨hinv2.keysNodup, hinv2.selfId, hinv2.rootsOk, ?_, ?_, ?_,
    hinv2.childSound, ⟨f, hinv2.meas⟩⟩
  · -- rootsComplete
    intro k b hb hbp
    obtain ⟨b0, hb0, _, _, _, e4, _⟩ := hbc k b hb
    have hk0 : k ∈ p.rootBlockIds :=
      hwf.rootsComplete k b0 hb0 (by rw [← e4, hbp])
    rw [hrc]
    exact List.mem_filter.mpr ⟨hk0, hmContains_of_get p2.blocks k b hb⟩
  · -- rootsNodup
    rw [hrc]
    exact List.Nodup.filter _ hwf.rootsNodup
  · -- parentChild
    intro k b pid hb hpid
    obtain ⟨b0, hb0, _, _, _, e4, _⟩ := hbc k b hb
    obtain ⟨pb, hpb, hcount⟩ := hwf.parentChild k b0 pid hb0 (by rw [← e4, hpid])
    have hkmem : hmContains p2.blocks k = true := hmContains_of_get p2.blocks k b hb
    have hpidmem : hmContains p2.blocks pid = true := by
      refine (hkeys pid).mpr ⟨hmContains_of_get p.blocks pid pb hpb, ?_⟩
      intro hch
      have hk2 := (hkeys k).mp hkmem
      exact hk2.2 (Chain.step k b0 pid hb0 (by rw [← e4, hpid]) hch)
    rcases hmGet_of_contains p2.blocks pid hpidmem with ⟨pb2, hpb2⟩
    obtain ⟨pb0, hpb0, _, _, _, _, _, _, e7⟩ := hbc pid pb2 hpb2
    rw [hpb] at hpb0
    injection hpb0 with hpb0
    refine ⟨pb2, hpb2, ?_⟩
    rw [e7, ← hpb0, List.count_filter hkmem]
    exact hcount

/-- Any finished `remove_block` run (success or `NotFound`) preserves full
well-formedness. -/
theorem removeRun_wf (p : Page) (id : String) (fuel : Nat)
    (st : Except DomainError Unit) (p2 : Page) (hwf : PageWF p)
    (hrun : removeBlockFuel fuel p id = some (st, p2)) : PageWF p2 := by
  cases hget : hmGet p.blocks id with
  | none =>
    cases fuel with
    | zero => simp [removeBlockFuel] at hrun
    | succ n =>
      simp only [removeBlockFuel, hget] at hrun
      injection hrun with hrun
      rw [Prod.mk.injEq] at hrun
      rw [← hrun.2]
      exact hwf
  | some b0 =>
    obtain ⟨f, hf⟩ := hwf.acyclic
    have hinv : RInv f p := rinv_of_wf p hwf f hf
    have hpl : PLink f p (f id) := plink_of_wf p hwf f (f id)
    obtain ⟨F0, hkb⟩ : ∃ F0, KeysBound f F0 p :=
      ⟨(hmKeys p.blocks).foldr (fun x a => max (f x) a) 0,
        fun k hk => foldr_max_bound f (hmKeys p.blocks) k hk⟩
    obtain ⟨p3, hrun3, hinv3, hkeys3, hbc3, hrc3, _, _⟩ :=
      (removeMain f F0 (F0 + 1)).1 p id b0 hinv hpl hkb hget (by omega)
    have h1 := removeBlock_mono fuel (max fuel (F0 + 1)) (Nat.le_max_left _ _)
      p id (st, p2) hrun
    have h2 := removeBlock_mono (F0 + 1) (max fuel (F0 + 1)) (Nat.le_max_right _ _)
      p id (Except.ok (), p3) hrun3
    rw [h1] at h2
    injection h2 with h2
    rw [Prod.mk.injEq] at h2
    rw [h2.2]
    exact pageWF_of_chars f p p3 id hwf hinv3 hkeys3 hbc3 hrc3

/-- A freshly created page is fully well-formed. -/
theorem new_wf (id title : String) : PageWF (Page.new id title) := by
  refine ⟨List.nodup_nil, ?_, ?_, ?_, List.nodup_nil, ?_, ?_, ⟨fun _ => 0, ?_⟩⟩
  · intro k b hb
    simp [Page.new, hmGet] at hb
  · intro r hr
    simp [Page.new] at hr
  · intro k b hb
    simp [Page.new, hmGet] at hb
  · intro k b pid hb _
    simp [Page.new, hmGet] at hb
  · intro k b c hb _
    simp [Page.new, hmGet] at hb
  · intro k b pid hb _ _
    simp [Page.new, hmGet] at hb

/-- A successful `add_block` of a freshly-generated block (fresh id, empty
`child_ids`) preserves full well-formedness. -/
theorem addBlock_wf (p : Page) (b : Block) (p2 : Page) (hwf : PageWF p)
    (hfresh : hmContains p.blocks b.id = false) (hchild : b.childIds = [])
    (hok : p.addBlock b = Except.ok p2) : PageWF p2 := by
  obtain ⟨f, hf⟩ := hwf.acyclic
  have hnone : hmGet p.blocks b.id = none := by
    cases h : hmGet p.blocks b.id with
    | none => rfl
    | some v => simp [hmContains, h] at hfresh
  have hbidmem : b.id ∉ hmKeys p.blocks := by
    intro hm
    rcases hmGet_isSome_of_mem_keys p.blocks b.id hm with ⟨v, hv⟩
    rw [hnone] at hv
    cases hv
  cases hbp : b.parentId with
  | some pid =>
    simp only [Page.addBlock, hbp] at hok
    by_cases hc : hmContains p.blocks pid = true
    · rw [if_pos hc] at hok
      injection hok with hok
      rcases hmGet_of_contains p.blocks pid hc with ⟨bq, hq⟩
      have hpidne : pid ≠ b.id := by
        intro he
        rw [he, hnone] at hq
        cases hq
      have hbidnotin : b.id ∉ bq.childIds := by
        intro hm
        obtain ⟨cb, hcb, _⟩ := hwf.childSound pid bq b.id hq hm
        rw [hnone] at hcb
        cases hcb
      have hblocks : p2.blocks =
          hmModify (hmInsert p.blocks b.id b) pid (fun z => z.addChild b.id) := by
        rw [← hok]
      have hroots2 : p2.rootBlockIds = p.rootBlockIds := by
        rw [← hok]
      have hg2 : ∀ x, hmGet p2.blocks x =
          if x = pid then some (bq.addChild b.id)
          else if x = b.id then some b
          else hmGet p.blocks x := by
        intro x
        rw [hblocks, hmGet_modify]
        by_cases hxp : x = pid
        · rw [if_pos hxp, if_pos hxp,
            hmGet_insert_ne p.blocks b.id pid b hpidne, hq]
          rfl
        · rw [if_neg hxp, if_neg hxp]
          by_cases hxb : x = b.id
          · rw [if_pos hxb, hxb, hmGet_insert_self]
          · rw [if_neg hxb, hmGet_insert_ne p.blocks b.id x b hxb]
      have hkeys2 : hmKeys p2.blocks = hmKeys p.blocks ++ [b.id] := by
        rw [hblocks, hmKeys_modify, hmKeys_insert_of_not_mem p.blocks b.id b hbidmem]
      have haddq : (bq.addChild b.id).childIds = bq.childIds ++ [b.id] := by
        simp [Block.addChild, hbidnotin]
      refine ⟨?_, ?_, ?_, ?_, ?_, ?_, ?_,
        ⟨fun x => if x = b.id then f pid + 1 else f x, ?_⟩⟩
      · rw [hkeys2]
        exact List.Nodup.append hwf.keysNodup (List.nodup_singleton _)
          (by simpa using hbidmem)
      · intro k bk hbk
        rw [hg2 k] at hbk
        by_cases hkp : k = pid
        · rw [if_pos hkp] at hbk
          injection hbk with hbk
          subst hbk
          rw [(addChild_keeps_id_parent bq b.id).1, hwf.selfId pid bq hq]
          exact hkp.symm
        · rw [if_neg hkp] at hbk
          by_cases hkb : k = b.id
          · rw [if_pos hkb] at hbk
            injection hbk with hbk
            subst hbk
            exact hkb.symm
          · rw [if_neg hkb] at hbk
            exact hwf.selfId k bk hbk
      · intro r hr
        rw [hroots2] at hr
        obtain ⟨br, hbr, hbrp⟩ := hwf.rootsSound r hr
        have hrb : r ≠ b.id := by
          intro he
          rw [he, hnone] at hbr
          cases hbr
        by_cases hrp : r = pid
        · refine ⟨bq.addChild b.id, by rw [hg2 r, if_pos hrp], ?_⟩
          rw [(addChild_keeps_id_parent bq b.id).2]
          rw [hrp, hq] at hbr
          injection hbr with hbr
          rw [hbr]
          exact hbrp
        · refine ⟨br, ?_, hbrp⟩
          rw [hg2 r, if_neg hrp, if_neg hrb]
          exact hbr
      · intro k bk hbk hbkp
        rw [hroots2]
        rw [hg2 k] at hbk
        by_cases hkp : k = pid
        · rw [if_pos hkp] at hbk
          injection hbk with hbk
          subst hbk
          rw [(addChild_keeps_id_parent bq b.id).2] at hbkp
          rw [hkp]
          exact hwf.rootsComplete pid bq hq hbkp
        · rw [if_neg hkp] at hbk
          by_cases hkb : k = b.id
          · rw [if_pos hkb] at hbk
            injection hbk with hbk
            subst hbk
            rw [hbp] at hbkp
            cases hbkp
          · rw [if_neg hkb] at hbk
            exact hwf.rootsComplete k bk hbk hbkp
      · rw [hroots2]
        exact hwf.rootsNodup
      · intro k bk pid2 hbk hbkp
        rw [hg2 k] at hbk
        by_cases hkp : k = pid
        · rw [if_pos hkp] at hbk
          injection hbk with hbk
          subst hbk
          rw [(addChild_keeps_id_parent bq b.id).2] at hbkp
          obtain ⟨pb, hpb, hcnt⟩ := hwf.parentChild pid bq pid2 hq hbkp
          have hpid2b : pid2 ≠ b.id := by
            intro he
            rw [he, hnone] at hpb
            cases hpb
          have hpid2nep : pid2 ≠ pid := by
            intro he
            rw [he] at hbkp
            have := hf pid bq pid hq hbkp (hmContains_of_get p.blocks pid bq hq)
            omega
          refine ⟨pb, ?_, ?_⟩
          · rw [hg2 pid2, if_neg hpid2nep, if_neg hpid2b]
            exact hpb
          · rw [hkp]
            exact hcnt
        · rw [if_neg hkp] at hbk
          by_cases hkb : k = b.id
          · rw [if_pos hkb] at hbk
            injection hbk with hbk
            subst hbk
            rw [hbp] at hbkp
            injection hbkp with hbkp
            refine ⟨bq.addChild b.id, ?_, ?_⟩
            · rw [hg2 pid2, ← hbkp, if_pos rfl]
            · rw [haddq, List.count_append, hkb]
              rw [List.count_eq_zero_of_not_mem hbidnotin]
              simp
          · rw [if_neg hkb] at hbk
            obtain ⟨pb, hpb, hcnt⟩ := hwf.parentChild k bk pid2 hbk hbkp
            have hpid2b : pid2 ≠ b.id := by
              intro he
              rw [he, hnone] at hpb
              cases hpb
            by_cases hpid2p : pid2 = pid
            · refine ⟨bq.addChild b.id, by rw [hg2 pid2, if_pos hpid2p], ?_⟩
              rw [hpid2p, hq] at hpb
              injection hpb with hpb
              have h0 : [b.id].count k = 0 := by simp [hkb]
              rw [haddq, List.count_append, hpb, h0, hcnt]
            · refine ⟨pb, ?_, hcnt⟩
              rw [hg2 pid2, if_neg hpid2p, if_neg hpid2b]
              exact hpb
      · intro k bk c hbk hcmem
        rw [hg2 k] at hbk
        by_cases hkp : k = pid
        · rw [if_pos hkp] at hbk
          injection hbk with hbk
          subst hbk
          rw [haddq] at hcmem
          rcases List.mem_append.mp hcmem with hcm | hcm
          · obtain ⟨cb, hcb, hcbp⟩ := hwf.childSound pid bq c hq hcm
            have hcbne : c ≠ b.id := by
              intro he
              rw [he, hnone] at hcb
              cases hcb
            by_cases hcp : c = pid
            · refine ⟨bq.addChild b.id, by rw [hg2 c, if_pos hcp], ?_⟩
              rw [(addChild_keeps_id_parent bq b.id).2, hkp]
              rw [hcp, hq] at hcb
              injection hcb with hcb
              rw [hcb]
              exact hcbp
            · refine ⟨cb, ?_, ?_⟩
              · rw [hg2 c, if_neg hcp, if_neg hcbne]
                exact hcb
              · rw [hkp]
                exact hcbp
          · rw [List.mem_singleton] at hcm
            refine ⟨b, ?_, ?_⟩
            · rw [hg2 c, hcm, if_neg (Ne.symm hpidne), if_pos rfl]
            · rw [hbp, hkp]
        · rw [if_neg hkp] at hbk
          by_cases hkb : k = b.id
          · rw [if_pos hkb] at hbk
            injection hbk with hbk
            subst hbk
            rw [hchild] at hcmem
            cases hcmem
          · rw [if_neg hkb] at hbk
            obtain ⟨cb, hcb, hcbp⟩ := hwf.childSound k bk c hbk hcmem
            have hcbne : c ≠ b.id := by
              intro he
              rw [he, hnone] at hcb
              cases hcb
            by_cases hcp : c = pid
            · refine ⟨bq.addChild b.id, by rw [hg2 c, if_pos hcp], ?_⟩
              rw [(addChild_keeps_id_parent bq b.id).2]
              rw [hcp, hq] at hcb
              injection hcb with hcb
              rw [hcb]
              exact hcbp
            · refine ⟨cb, ?_, hcbp⟩
              rw [hg2 c, if_neg hcp, if_neg hcbne]
              exact hcb
      · intro k bk pid2 hbk hbkp hcont
        rw [hg2 k] at hbk
        by_cases hkp : k = pid
        · rw [if_pos hkp] at hbk
          injection hbk with hbk
          subst hbk
          rw [(addChild_keeps_id_parent bq b.id).2] at hbkp
          obtain ⟨pb, hpb, _⟩ := hwf.parentChild pid bq pid2 hq hbkp
          have hpid2b : pid2 ≠ b.id := by
            intro he
            rw [he, hnone] at hpb
            cases hpb
          have hkb : k ≠ b.id := by
            rw [hkp]
            exact hpidne
          show (if pid2 = b.id then f pid + 1 else f pid2) <
            if k = b.id then f pid + 1 else f k
          rw [if_neg hpid2b, if_neg hkb, hkp]
          exact hf pid bq pid2 hq hbkp (hmContains_of_get p.blocks pid2 pb hpb)
        · rw [if_neg hkp] at hbk
          by_cases hkb : k = b.id
          · rw [if_pos hkb] at hbk
            injection hbk with hbk
            subst hbk
            rw [hbp] at hbkp
            injection hbkp with hbkp
            show (if pid2 = b.id then f pid + 1 else f pid2) <
              if k = b.id then f pid + 1 else f k
            rw [if_pos hkb, ← hbkp, if_neg hpidne]
            omega
          · rw [if_neg hkb] at hbk
            obtain ⟨pb, hpb, _⟩ := hwf.parentChild k bk pid2 hbk hbkp
            have hpid2b : pid2 ≠ b.id := by
              intro he
              rw [he, hnone] at hpb
              cases hpb
            show (if pid2 = b.id then f pid + 1 else f pid2) <
              if k = b.id then f pid + 1 else f k
            rw [if_neg hpid2b, if_neg hkb]
            exact hf k bk pid2 hbk hbkp (hmContains_of_get p.blocks pid2 pb hpb)
    · rw [if_neg hc] at hok
      simp at hok
  | none =>
    simp only [Page.addBlock, hbp] at hok
    by_cases hmem : b.id ∈ p.rootBlockIds
    · obtain ⟨br, hbr, _⟩ := hwf.rootsSound b.id hmem
      rw [hnone] at hbr
      cases hbr
    · rw [if_neg hmem] at hok
      injection hok with hok
      have hblocks : p2.blocks = hmInsert p.blocks b.id b := by
        rw [← hok]
      have hroots2 : p2.rootBlockIds = p.rootBlockIds ++ [b.id] := by
        rw [← hok]
      have hg2 : ∀ x, hmGet p2.blocks x =
          if x = b.id then some b else hmGet p.blocks x := by
        intro x
        rw [hblocks]
        by_cases hxb : x = b.id
        · rw [if_pos hxb, hxb, hmGet_insert_self]
        · rw [if_neg hxb, hmGet_insert_ne p.blocks b.id x b hxb]
      have hkeys2 : hmKeys p2.blocks = hmKeys p.blocks ++ [b.id] := by
        rw [hblocks, hmKeys_insert_of_not_mem p.blocks b.id b hbidmem]
      refine ⟨?_, ?_, ?_, ?_, ?_, ?_, ?_, ⟨f, ?_⟩⟩
      · rw [hkeys2]
        exact List.Nodup.append hwf.keysNodup (List.nodup_singleton _)
          (by simpa using hbidmem)
      · intro k bk hbk
        rw [hg2 k] at hbk
        by_cases hkb : k = b.id
        · rw [if_pos hkb] at hbk
          injection hbk with hbk
          subst hbk
          exact hkb.symm
        · rw [if_neg hkb] at hbk
          exact hwf.selfId k bk hbk
      · intro r hr
        rw [hroots2] at hr
        rcases List.mem_append.mp hr with hr | hr
        · obtain ⟨br, hbr, hbrp⟩ := hwf.rootsSound r hr
          have hrb : r ≠ b.id := by
            intro he
            rw [he, hnone] at hbr
            cases hbr
          exact ⟨br, by rw [hg2 r, if_neg hrb]; exact hbr, hbrp⟩
        · rw [List.mem_singleton] at hr
          refine ⟨b, ?_, hbp⟩
          rw [hg2 r, if_pos hr]
      · intro k bk hbk hbkp
        rw [hroots2]
        rw [hg2 k] at hbk
        rw [List.mem_append, List.mem_singleton]
        by_cases hkb : k = b.id
        · exact Or.inr hkb
        · rw [if_neg hkb] at hbk
          exact Or.inl (hwf.rootsComplete k bk hbk hbkp)
      · rw [hroots2]
        exact List.Nodup.append hwf.rootsNodup (List.nodup_singleton _)
          (by simpa using hmem)
      · intro k bk pid2 hbk hbkp
        rw [hg2 k] at hbk
        by_cases hkb : k = b.id
        · rw [if_pos hkb] at hbk
          injection hbk with hbk
          subst hbk
          rw [hbp] at hbkp
          cases hbkp
        · rw [if_neg hkb] at hbk
          obtain ⟨pb, hpb, hcnt⟩ := hwf.parentChild k bk pid2 hbk hbkp
          have hpid2b : pid2 ≠ b.id := by
            intro he
            rw [he, hnone] at hpb
            cases hpb
          exact ⟨pb, by rw [hg2 pid2, if_neg hpid2b]; exact hpb, hcnt⟩
      · intro k bk c hbk hcmem
        rw [hg2 k] at hbk
        by_cases hkb : k = b.id
        · rw [if_pos hkb] at hbk
          injection hbk with hbk
          subst hbk
          rw [hchild] at hcmem
          cases hcmem
        · rw [if_neg hkb] at hbk
          obtain ⟨cb, hcb, hcbp⟩ := hwf.childSound k bk c hbk hcmem
          have hcbne : c ≠ b.id := by
            intro he
            rw [he, hnone] at hcb
            cases hcb
          exact ⟨cb, by rw [hg2 c, if_neg hcbne]; exact hcb, hcbp⟩
      · intro k bk pid2 hbk hbkp hcont
        rw [hg2 k] at hbk
        by_cases hkb : k = b.id
        · rw [if_pos hkb] at hbk
          injection hbk with hbk
          subst hbk
          rw [hbp] at hbkp
          cases hbkp
        · rw [if_neg hkb] at hbk
          obtain ⟨pb, hpb, _⟩ := hwf.parentChild k bk pid2 hbk hbkp
          exact hf k bk pid2 hbk hbkp (hmContains_of_get p.blocks pid2 pb hpb)

/-- Every page reachable through the aggregate lifecycle is fully
well-formed. -/
theorem reached_wf (p : Page) (h : Reached p) : PageWF p := by
  induction h with
  | new id title => exact new_wf id title
  | add p b p2 hr hfresh hch hok ih => exact addBlock_wf p b p2 ih hfresh hch hok
  | remove p id fuel st p2 hr hrun ih => exact removeRun_wf p id fuel st p2 ih hrun

/-- Full well-formedness implies the claimed structural invariants. -/
theorem wf_structural (p : Page) (h : PageWF p) : StructuralInvariants p := by
  refine ⟨?_, h.rootsSound, h.rootsNodup⟩
  intro kb hkb
  have hget : hmGet p.blocks kb.1 = some kb.2 :=
    hmGet_of_mem p.blocks kb.1 kb.2 h.keysNodup hkb
  constructor
  · intro hp
    exact h.rootsComplete kb.1 kb.2 hget hp
  · intro pid hp
    exact h.parentChild kb.1 kb.2 pid hget hp

theorem head?_append_of_some {α : Type} (l l2 : List α) (a : α)
    (h : l.head? = some a) : (l ++ l2).head? = some a := by
  cases l with
  | nil => cases h
  | cons x xs =>
    injection h with h
    rw [List.cons_append, List.head?_cons, h]

/-- `pageTwoRoots` arises from the aggregate lifecycle. -/
theorem reached_pageTwoRoots : Reached pageTwoRoots :=
  Reached.add (addBlockOk (Page.new "p" "Demo") (Block.newRoot "A" "first root"))
    (Block.newRoot "B" "second root") pageTwoRoots
    (Reached.add (Page.new "p" "Demo") (Block.newRoot "A" "first root")
      (addBlockOk (Page.new "p" "Demo") (Block.newRoot "A" "first root"))
      (Reached.new "p" "Demo") (by decide) rfl rfl)
    (by decide) rfl rfl

/-- `pageFamily` arises from the aggregate lifecycle. -/
theorem reached_pageFamily : Reached pageFamily :=
  Reached.add
    (addBlockOk (addBlockOk (addBlockOk (Page.new "p" "Family")
      (Block.newRoot "r" "root")) (Block.newChild "a" "first child" "r" 1))
      (Block.newChild "b" "second child" "r" 1))
    (Block.newChild "g" "grandchild" "a" 2) pageFamily
    (Reached.add
      (addBlockOk (addBlockOk (Page.new "p" "Family") (Block.newRoot "r" "root"))
        (Block.newChild "a" "first child" "r" 1))
      (Block.newChild "b" "second child" "r" 1) _
      (Reached.add
        (addBlockOk (Page.new "p" "Family") (Block.newRoot "r" "root"))
        (Block.newChild "a" "first child" "r" 1) _
        (Reached.add (Page.new "p" "Family") (Block.newRoot "r" "root") _
          (Reached.new "p" "Family") (by decide) rfl rfl)
        (by decide) rfl rfl)
      (by decide) rfl rfl)
    (by decide) rfl rfl

/-! ## C1 — structural invariants of the aggregate -/

/-- C1 (counterexample to the literal claim): `add_block` succeeds on a block
that reuses the existing id `A` under parent `B`; the insertion overwrites
root `A`'s entry while `root_block_ids` keeps listing `A`, so after this
successful mutating operation the root list names a block whose `parent_id`
is present — the structural invariants do not hold. -/
theorem c1_counterexample_duplicate_id :
    StructuralInvariants pageTwoRoots ∧
    pageTwoRoots.addBlock dupBlockA = Except.ok (addBlockOk pageTwoRoots dupBlockA) ∧
    ¬ StructuralInvariants (addBlockOk pageTwoRoots dupBlockA) := by
  refine ⟨wf_structural pageTwoRoots (reached_wf pageTwoRoots reached_pageTwoRoots),
    rfl, ?_⟩
  intro h
  obtain ⟨_, h2, _⟩ := h
  obtain ⟨bb, hb, hbp⟩ := h2 "A" (by decide)
  have hv : hmGet (addBlockOk pageTwoRoots dupBlockA).blocks "A" = some dupBlockA := by
    decide
  rw [hv] at hb
  injection hb with hb
  rw [← hb] at hbp
  exact absurd hbp (by decide)

/-- C1 (amended): every page reachable through the aggregate's lifecycle —
created empty, grown by successful `add_block` calls on freshly generated ids
of newly constructed blocks (empty initial `child_ids`, as
`Block::new_root`/`new_child` produce), and shrunk by finished `remove_block`
runs — satisfies the structural invariants: parentless blocks are listed in
`root_block_ids` (which is duplicate-free and names only parentless blocks),
and every block with a parent has that parent present with the block counted
exactly once among its `child_ids`.  The literal claim, quantified over
arbitrary `add_block` arguments, fails on duplicate ids. -/
theorem c1_lifecycle_invariants (p : Page) (h : Reached p) :
    StructuralInvariants p :=
  wf_structural p (reached_wf p h)

theorem c1_witness : StructuralInvariants pageFamily :=
  c1_lifecycle_invariants pageFamily reached_pageFamily

/-! ## C3 — `remove_block` error handling and subtree removal -/

/-- C3: on a well-formed page, `remove_block` of an unknown id fails with
`NotFound` leaving the page unchanged (for any positive fuel), and
`remove_block` of a present id succeeds (for all sufficiently large fuels),
after which the block and all its transitive descendants (the `parent_id`
chains into `id`) are gone from `blocks`, the id is absent from its former
parent's `child_ids` and from `root_block_ids`, and the structural
invariants hold again. -/
theorem c3_remove_block (p : Page) (id : String) (hwf : PageWF p) :
    (hmGet p.blocks id = none →
      ∀ fuel, removeBlockFuel (fuel + 1) p id =
        some (Except.error (DomainError.notFound
          ("Block " ++ id ++ " not found")), p)) ∧
    (∀ b0, hmGet p.blocks id = some b0 →
      ∃ fuel p2, (∀ g, fuel ≤ g →
          removeBlockFuel g p id = some (Except.ok (), p2)) ∧
        hmContains p2.blocks id = false ∧
        (∀ x, Chain p id x → hmContains p2.blocks x = false) ∧
        (∀ pid pb2, b0.parentId = some pid → hmGet p2.blocks pid = some pb2 →
          id ∉ pb2.childIds) ∧
        id ∉ p2.rootBlockIds ∧
        StructuralInvariants p2) := by
  constructor
  · intro hnone fuel
    simp [removeBlockFuel, hnone]
  · intro b0 hget
    obtain ⟨f, hf⟩ := hwf.acyclic
    have hinv : RInv f p := rinv_of_wf p hwf f hf
    have hpl : PLink f p (f id) := plink_of_wf p hwf f (f id)
    obtain ⟨F0, hkb⟩ : ∃ F0, KeysBound f F0 p :=
      ⟨(hmKeys p.blocks).foldr (fun x a => max (f x) a) 0,
        fun k hk => foldr_max_bound f (hmKeys p.blocks) k hk⟩
    obtain ⟨p2, hrun, hinv2, hkeys2, hbc2, hrc2, _, _⟩ :=
      (removeMain f F0 (F0 + 1)).1 p id b0 hinv hpl hkb hget (by omega)
    have hidgone : hmContains p2.blocks id = false := by
      cases h : hmContains p2.blocks id
      · rfl
      · exact absurd Chain.refl ((hkeys2 id).mp h).2
    refine ⟨F0 + 1, p2, ?_, hidgone, ?_, ?_, ?_, ?_⟩
    · intro g hg
      exact removeBlock_mono (F0 + 1) g hg p id (Except.ok (), p2) hrun
    · intro x hch
      cases h : hmContains p2.blocks x
      · rfl
      · exact absurd hch ((hkeys2 x).mp h).2
    · intro pid pb2 hbpid hpb2 hmem
      obtain ⟨pb, hpb, _, _, _, _, _, _, e7⟩ := hbc2 pid pb2 hpb2
      rw [e7] at hmem
      have h2 : hmContains p2.blocks id = true := by
        simpa using List.of_mem_filter hmem
      rw [hidgone] at h2
      cases h2
    · intro hmem
      rw [hrc2] at hmem
      have h2 : hmContains p2.blocks id = true := by
        simpa using List.of_mem_filter hmem
      rw [hidgone] at h2
      cases h2
    · exact wf_structural p2 (pageWF_of_chars f p p2 id hwf hinv2 hkeys2 hbc2 hrc2)

theorem c3_witness : removeBlockFuel 1 pageFamily "z" =
    some (Except.error (DomainError.notFound
      ("Block " ++ "z" ++ " not found")), pageFamily) :=
  (c3_remove_block pageFamily "z"
    (reached_wf pageFamily reached_pageFamily)).1 (by decide) 0

/-! ## C9 — hierarchy path versus ancestors -/

/-- C9: on a well-formed page, for every present block, `get_ancestors`
terminates (uniformly for all sufficiently large fuels) and
`get_hierarchy_path` equals the reversed ancestors with the block itself
appended; hence the path is one longer than the ancestor list, ends with the
block, starts with a parentless block, and a root block has no ancestors. -/
theorem c9_hierarchy_path (p : Page) (id : String) (b : Block) (hwf : PageWF p)
    (hget : hmGet p.blocks id = some b) :
    ∃ fuel anc,
      (∀ g, fuel ≤ g → getAncestorsFuel g p id = some anc ∧
        getHierarchyPathFuel g p id = some (anc.reverse ++ [b])) ∧
      (anc.reverse ++ [b]).length = 1 + anc.length ∧
      (anc.reverse ++ [b]).getLast? = some b ∧
      (∃ hd, (anc.reverse ++ [b]).head? = some hd ∧ hd.parentId = none) ∧
      (b.parentId = none → anc = []) := by
  obtain ⟨f, hf⟩ := hwf.acyclic
  have key : ∀ n : Nat, ∀ id2 b2, hmGet p.blocks id2 = some b2 → f id2 ≤ n →
      ∃ fuel anc,
        (∀ g, fuel ≤ g → getAncestorsFuel g p id2 = some anc) ∧
        (b2.parentId = none → anc = []) ∧
        ∃ hd, (anc.reverse ++ [b2]).head? = some hd ∧ hd.parentId = none := by
    intro n
    induction n with
    | zero =>
      intro id2 b2 hget2 hle
      cases hbp : b2.parentId with
      | none =>
        refine ⟨1, [], ?_, fun _ => rfl, ⟨b2, rfl, hbp⟩⟩
        intro g hg
        cases g with
        | zero => omega
        | succ g2 => simp [getAncestorsFuel, hget2, hbp]
      | some pid =>
        obtain ⟨bp, hbpget, _⟩ := hwf.parentChild id2 b2 pid hget2 hbp
        have := hf id2 b2 pid hget2 hbp (hmContains_of_get p.blocks pid bp hbpget)
        omega
    | succ n ih =>
      intro id2 b2 hget2 hle
      cases hbp : b2.parentId with
      | none =>
        refine ⟨1, [], ?_, fun _ => rfl, ⟨b2, rfl, hbp⟩⟩
        intro g hg
        cases g with
        | zero => omega
        | succ g2 => simp [getAncestorsFuel, hget2, hbp]
      | some pid =>
        obtain ⟨bp, hbpget, _⟩ := hwf.parentChild id2 b2 pid hget2 hbp
        have hlt := hf id2 b2 pid hget2 hbp (hmContains_of_get p.blocks pid bp hbpget)
        obtain ⟨fuel2, anc2, hrun2, hnil2, hd, hhd, hhdp⟩ :=
          ih pid bp hbpget (by omega)
        refine ⟨fuel2 + 1, bp :: anc2, ?_, ?_, ?_⟩
        · intro g hg
          cases g with
          | zero => omega
          | succ g2 =>
            have hg2 : getAncestorsFuel g2 p pid = some anc2 := hrun2 g2 (by omega)
            simp [getAncestorsFuel, hget2, hbp, hbpget, hg2]
        · intro h
          cases h
        · refine ⟨hd, ?_, hhdp⟩
          rw [List.reverse_cons]
          exact head?_append_of_some _ _ hd hhd
  obtain ⟨fuel, anc, hrun, hnil, hhd⟩ := key (f id) id b hget (Nat.le_refl _)
  refine ⟨fuel, anc, ?_, ?_, by simp, hhd, hnil⟩
  · intro g hg
    refine ⟨hrun g hg, ?_⟩
    simp [getHierarchyPathFuel, hrun g hg, hget]
  · simp only [List.length_append, List.length_reverse, List.length_singleton]
    omega

theorem c9_witness :
    ∃ fuel anc,
      (∀ g, fuel ≤ g → getAncestorsFuel g pageFamily "g" = some anc ∧
        getHierarchyPathFuel g pageFamily "g" =
          some (anc.reverse ++ [Block.newChild "g" "grandchild" "a" 2])) ∧
      (anc.reverse ++ [Block.newChild "g" "grandchild" "a" 2]).length =
        1 + anc.length ∧
      (anc.reverse ++ [Block.newChild "g" "grandchild" "a" 2]).getLast? =
        some (Block.newChild "g" "grandchild" "a" 2) ∧
      (∃ hd, (anc.reverse ++ [Block.newChild "g" "grandchild" "a" 2]).head? =
        some hd ∧ hd.parentId = none) ∧
      ((Block.newChild "g" "grandchild" "a" 2).parentId = none → anc = []) :=
  c9_hierarchy_path pageFamily "g" (Block.newChild "g" "grandchild" "a" 2)
    (reached_wf pageFamily reached_pageFamily) (by decide)

end Logjam
